import Mathlib

/-!
Physical page allocator with reference counts (`kernel/kalloc.c`).

A shallow embedding of `kinit`, `freerange`, `kfree`, `kalloc`, `inc_ref_count`,
`dec_ref_count` and `get_ref_count`, executed sequentially on one hart.

* Addresses and `uint64` values are natural numbers; `uint64` arithmetic and the pointer
  step `p + PGSIZE` are taken modulo `2 ^ 64`, the C type `int` is a 32-bit two's
  complement word.
* Physical memory is a map from byte address to byte; the free list is the intrusive
  list of the source: `kmem.freelist` is the head and the first eight bytes of a free
  page hold the address of the next one.
* `KERNBASE`, `PHYSTOP` and the linker symbol `end` come from files that are not part
  of `kalloc.c`; they are the fields of `Config`.
* The spin lock is not part of the state: with one hart `acquire`/`release` only
  bracket the code between them.
* For two execution contexts inside `dec_ref_count`, `dec_step` gives the atomic actions
  (the reads of the slot, the `cas`, the read of `get_ref_count`) and `dec_interleave`
  runs a schedule of them on the shared state.
-/

namespace Kalloc

/-- Modelled from the spec: the constant `PGSIZE` of `riscv.h`, which is not in `src/`; the
spec and the header comment of `kalloc.c` give a page of 4096 bytes. -/
def PGSIZE : Nat := 4096

/-- Number of values of a `uint64`. -/
def U64 : Nat := 18446744073709551616

/-- Number of values of a 32-bit word. -/
def U32 : Nat := 4294967296

/-- The layout constants `kalloc.c` takes from its environment: `KERNBASE` and `PHYSTOP`
of `memlayout.h` and the linker symbol `end` (first address after the kernel). -/
structure Config where
  KERNBASE : Nat
  PHYSTOP : Nat
  kend : Nat

/-- The mutable state: `kmem.freelist`, `kmem.count_of_pages` (slot index to `uint64`
value) and the bytes of physical memory. -/
structure State where
  freelist : Nat
  count_of_pages : Nat → Nat
  mem : Nat → Nat

/-- The assignment `kmem.count_of_pages[i] = v`. -/
def State.setCount (s : State) (i v : Nat) : State :=
  { s with count_of_pages := fun j => if j = i then v else s.count_of_pages j }

/-- How a call ends: it returns a value, it calls `panic` in the state shown (`panic` is
not in `src/`; following the spec it is fatal and the call never returns), or a loop is
still running when the fuel is used up. -/
inductive Outcome (α : Type) where
  | ret (v : α) (s : State) : Outcome α
  | panic (s : State) : Outcome α
  | spin : Outcome α

/-- The value a call returned, if it returned. -/
def Outcome.val? {α : Type} : Outcome α → Option α
  | .ret v _ => some v
  | .panic _ => none
  | .spin => none

/-- The state a call returned in, if it returned. -/
def Outcome.state? {α : Type} : Outcome α → Option State
  | .ret _ s => some s
  | .panic _ => none
  | .spin => none

/-- Whether a call ended in `panic`. -/
def Outcome.isPanic {α : Type} : Outcome α → Bool
  | .ret _ _ => false
  | .panic _ => true
  | .spin => false

/-- Subtraction of `uint64` values. -/
def sub64 (a b : Nat) : Nat := (a % U64 + U64 - b % U64) % U64

/-- Addition of `uint64` values. -/
def add64 (a b : Nat) : Nat := (a + b) % U64

/-- Conversion of a `uint64` to the C type `int`: the low 32 bits, read as two's
complement. -/
def toInt32 (v : Nat) : Int :=
  if v % U32 < 2147483648 then ((v % U32 : Nat) : Int) else ((v % U32 : Nat) : Int) - 4294967296

/-- The 32-bit word that holds an `int`. -/
def ofInt32 (i : Int) : Nat := (i % 4294967296).toNat

/-- Modelled from the spec: the macro `PGROUNDUP` of `riscv.h`, which is not in `src/`;
it rounds a `uint64` up to the next multiple of the page size. -/
def PGROUNDUP (sz : Nat) : Nat := add64 sz (PGSIZE - 1) / PGSIZE * PGSIZE

/-- Modelled from the spec: `memset(dst, c, n)` of `string.c`, which is not in `src/`; it
overwrites the `n` bytes from `dst` with the byte `c`. -/
def memset (m : Nat → Nat) (dst c n : Nat) : Nat → Nat :=
  fun a => if dst ≤ a ∧ a < dst + n then c % 256 else m a

/-- Store of a pointer (8 bytes, little endian) at address `a`: `r->next = v`. -/
def store64 (m : Nat → Nat) (a v : Nat) : Nat → Nat :=
  fun x => if a ≤ x ∧ x < a + 8 then v / 256 ^ (x - a) % 256 else m x

/-- Load of a pointer (8 bytes, little endian) from address `a`: `r->next`. -/
def load64 (m : Nat → Nat) (a : Nat) : Nat :=
  m a % 256 + m (a + 1) % 256 * 256 + m (a + 2) % 256 * 65536
    + m (a + 3) % 256 * 16777216 + m (a + 4) % 256 * 4294967296
    + m (a + 5) % 256 * 1099511627776 + m (a + 6) % 256 * 281474976710656
    + m (a + 7) % 256 * 72057594037927936

/-- Modelled from the spec: `cas` is declared `extern` in `kalloc.c` and its body is not
in `src/`. The spec describes it as an atomic compare-and-swap against the value read,
and the retry loops stop when it returns 0. Its operands are C `int`s, so it acts on the
32-bit word at the slot's address (the low half of the little-endian `uint64` slot): when
that word equals `prev` it is replaced by `next` and 0 is returned, otherwise nothing
changes and 1 is returned. -/
def cas (s : State) (place : Nat) (prev next : Int) : Nat × State :=
  if toInt32 (s.count_of_pages place) = prev then
    (0, s.setCount place (s.count_of_pages place / U32 * U32 + ofInt32 next))
  else (1, s)

/-- The slot index `(pa - KERNBASE) / PGSIZE` computed by the three counter routines. -/
def place_of (c : Config) (pa : Nat) : Nat := sub64 pa c.KERNBASE / PGSIZE

/-- The routine `get_ref_count(pa)`: the slot of `pa`, returned as an `int`. -/
def get_ref_count (c : Config) (s : State) (pa : Nat) : Outcome Int :=
  .ret (toInt32 (s.count_of_pages (place_of c pa))) s

/-- The loop `while (cas(slot, *slot, *slot + 1));` of `inc_ref_count`. -/
def inc_loop (place : Nat) : Nat → State → Option State
  | 0, _ => none
  | fuel + 1, s =>
    match cas s place (toInt32 (s.count_of_pages place))
        (toInt32 (add64 (s.count_of_pages place) 1)) with
    | (0, s') => some s'
    | (_, s') => inc_loop place fuel s'

/-- The loop `while (cas(slot, *slot, *slot - 1));` of `dec_ref_count`. -/
def dec_loop (place : Nat) : Nat → State → Option State
  | 0, _ => none
  | fuel + 1, s =>
    match cas s place (toInt32 (s.count_of_pages place))
        (toInt32 (sub64 (s.count_of_pages place) 1)) with
    | (0, s') => some s'
    | (_, s') => dec_loop place fuel s'

/-- The routine `inc_ref_count(pa)`: the retry loop, then the counter is read back. -/
def inc_ref_count (c : Config) (fuel : Nat) (s : State) (pa : Nat) : Outcome Int :=
  match inc_loop (place_of c pa) fuel s with
  | none => .spin
  | some s' => get_ref_count c s' pa

/-- The routine `dec_ref_count(pa)`: the retry loop, then the counter is read back. -/
def dec_ref_count (c : Config) (fuel : Nat) (s : State) (pa : Nat) : Outcome Int :=
  match dec_loop (place_of c pa) fuel s with
  | none => .spin
  | some s' => get_ref_count c s' pa

/-- The routine `kfree(pa)`: validation, decrement, and when the counter is not positive
the page is filled with 1 and pushed on the free list. -/
def kfree (c : Config) (fuel : Nat) (s : State) (pa : Nat) : Outcome Unit :=
  if pa % PGSIZE ≠ 0 ∨ pa < c.kend ∨ pa ≥ c.PHYSTOP then .panic s
  else
    match dec_ref_count c fuel s pa with
    | .spin => .spin
    | .panic s' => .panic s'
    | .ret n s1 =>
      if n > 0 then .ret () s1
      else
        .ret () { s1 with
          mem := store64 (memset s1.mem pa 1 PGSIZE) pa s1.freelist
          freelist := pa }

/-- The routine `kalloc()`; the null pointer is 0. -/
def kalloc (c : Config) (fuel : Nat) (s : State) : Outcome Nat :=
  let r := s.freelist
  if r ≠ 0 then
    let s1 : State := { s with freelist := load64 s.mem r }
    let s2 : State := { s1 with mem := memset s1.mem r 5 PGSIZE }
    match inc_ref_count c fuel s2 r with
    | .spin => .spin
    | .panic s' => .panic s'
    | .ret _ s3 => .ret r s3
  else .ret r s

/-- The `for` loop of `freerange`: `index` was computed before the loop, `n` bounds the
number of iterations. -/
def freerange_loop (c : Config) (fuel index pa_end : Nat) : Nat → Nat → State → Outcome Unit
  | 0, _, _ => .spin
  | n + 1, p, s =>
    if add64 p PGSIZE ≤ pa_end then
      match kfree c fuel (s.setCount index 1) p with
      | .spin => .spin
      | .panic s' => .panic s'
      | .ret _ s' => freerange_loop c fuel index pa_end n (add64 p PGSIZE) s'
    else .ret () s

/-- The routine `freerange(pa_start, pa_end)`; `fuel` bounds the iterations of its loop. -/
def freerange (c : Config) (fuel : Nat) (s : State) (pa_start pa_end : Nat) : Outcome Unit :=
  let p := PGROUNDUP pa_start
  let index := sub64 p c.KERNBASE / PGSIZE
  freerange_loop c fuel index pa_end fuel p s

/-- The routine `kinit()`: `initlock` has no effect on the modelled state, `memset` clears the
`(PHYSTOP - KERNBASE) / PGSIZE` slots of the table. -/
def kinit (c : Config) (fuel : Nat) (s : State) : Outcome Unit :=
  let s1 : State := { s with count_of_pages := fun i =>
    if i < (c.PHYSTOP - c.KERNBASE) / PGSIZE then 0 else s.count_of_pages i }
  freerange c fuel s1 c.kend c.PHYSTOP

/-- The state at boot: `kmem` is a zero-initialised global, physical memory holds `m`. -/
def boot (m : Nat → Nat) : State :=
  { freelist := 0, count_of_pages := fun _ => 0, mem := m }

/-- The linked list that starts at pointer `h` and ends at the null pointer visits
exactly the pages `l`, in this order. -/
def isChain (m : Nat → Nat) : Nat → List Nat → Prop
  | h, [] => h = 0
  | h, p :: l => h = p ∧ p ≠ 0 ∧ isChain m (load64 m p) l

/-- The free list of state `s` holds exactly the pages `l`, head first. -/
def FreeListIs (s : State) (l : List Nat) : Prop := isChain s.mem s.freelist l

/-- The state `kfree(pa)` returns in when the decremented counter is not positive: the
counter is decremented, the page is filled with 1 and linked in front of the free list. -/
def pushed (c : Config) (s : State) (pa : Nat) : State :=
  { freelist := pa
    count_of_pages := (s.setCount (place_of c pa)
            (s.count_of_pages (place_of c pa) / U32 * U32
              + (s.count_of_pages (place_of c pa) + 4294967295) % U32)).count_of_pages
    mem := store64 (memset s.mem pa 1 PGSIZE) pa s.freelist }

/-- The state `kalloc()` returns in when the free list is not empty: the head page is
unlinked, filled with 5 and its counter is incremented. -/
def popped (c : Config) (s : State) : State :=
  { freelist := load64 s.mem s.freelist
    count_of_pages := (s.setCount (place_of c s.freelist)
            (s.count_of_pages (place_of c s.freelist) / U32 * U32
              + (s.count_of_pages (place_of c s.freelist) + 1) % U32)).count_of_pages
    mem := memset s.mem s.freelist 5 PGSIZE }

/-- The `n` page addresses `p`, `p + PGSIZE`, ... in increasing order. -/
def framesFrom (p : Nat) : Nat → List Nat
  | 0 => []
  | n + 1 => p :: framesFrom (p + PGSIZE) n

/-- Number of whole pages between `PGROUNDUP(end)` and `PHYSTOP`. -/
def nframes (c : Config) : Nat := (c.PHYSTOP - PGROUNDUP c.kend) / PGSIZE

/-- The frames of the managed range, lowest first. -/
def frames (c : Config) : List Nat := framesFrom (PGROUNDUP c.kend) (nframes c)

/-- Constraints on the layout constants: `KERNBASE` and `PHYSTOP` are page-aligned,
`KERNBASE <= end <= PHYSTOP`, the first address after the kernel is not the null address,
and `PHYSTOP` is a `uint64` small enough for the pointer `p + PGSIZE` in the loop test of
`freerange` not to wrap around. -/
def Config.wf (c : Config) : Prop :=
  c.KERNBASE % PGSIZE = 0 ∧ c.PHYSTOP % PGSIZE = 0 ∧ c.KERNBASE ≤ c.kend ∧ c.kend ≤ c.PHYSTOP
    ∧ 0 < c.kend ∧ c.PHYSTOP + PGSIZE < U64

instance (c : Config) : Decidable c.wf := by
  unfold Config.wf
  infer_instance

/-- Sequencing of two calls: the second runs in the state the first returned in. -/
def Outcome.bind {α β : Type} (o : Outcome α) (f : α → State → Outcome β) : Outcome β :=
  match o with
  | .ret v s => f v s
  | .panic s => .panic s
  | .spin => .spin

/-- The addresses returned by `n` successive calls of `kalloc()` (first call first) and
the state after the last one. -/
def kalloc_seq (c : Config) (fuel : Nat) : Nat → State → Option (List Nat × State)
  | 0, s => some ([], s)
  | n + 1, s =>
    match kalloc c fuel s with
    | .ret p s' => (kalloc_seq c fuel n s').map (fun r => (p :: r.1, r.2))
    | .panic _ => none
    | .spin => none

/-- A layout with the xv6 values `KERNBASE = 0x80000000` and `PHYSTOP = 0x88000000` and a
kernel image that ends at `0x87FFDF9C`, which leaves the two frames `0x87FFE000` and
`0x87FFF000`. -/
def cfg2 : Config := { KERNBASE := 2147483648, PHYSTOP := 2281701376, kend := 2281693084 }

/-- A layout with the xv6 values of `KERNBASE` and `PHYSTOP` whose kernel image ends at the
page boundary `0x87FFE000`. -/
def cfgAligned : Config := { KERNBASE := 2147483648, PHYSTOP := 2281701376, kend := 2281693184 }

/-- Boot state with a zero-filled memory image. -/
def boot0 : State := boot (fun _ => 0)

/-- The call returned, and `P` holds of the value and the state it returned. -/
def Outcome.holds {α : Type} (o : Outcome α) (P : α → State → Prop) : Prop :=
  match o with
  | .ret v s => P v s
  | .panic _ => False
  | .spin => False

instance {α : Type} (o : Outcome α) (P : α → State → Prop) [∀ v s, Decidable (P v s)] :
    Decidable (o.holds P) := by
  cases o <;> unfold Outcome.holds <;> infer_instance

/-- A frame of the managed range: an address that passes the validation of `kfree`
(page-aligned, not below `end`, below `PHYSTOP`). -/
def isFrame (c : Config) (p : Nat) : Prop := p % PGSIZE = 0 ∧ c.kend ≤ p ∧ p < c.PHYSTOP

instance (c : Config) (p : Nat) : Decidable (isFrame c p) := by
  unfold isFrame
  infer_instance

instance decIsChain (m : Nat → Nat) : ∀ (l : List Nat) (h : Nat), Decidable (isChain m h l)
  | [], h => by unfold isChain; infer_instance
  | p :: l, h => by
    unfold isChain
    have := decIsChain m l (load64 m p)
    infer_instance

instance (s : State) (l : List Nat) : Decidable (FreeListIs s l) := by
  unfold FreeListIs
  infer_instance

/-- A state with an empty free list in which every counter reads 1. -/
def allOwned : State := { freelist := 0, count_of_pages := fun _ => 1, mem := fun _ => 0 }

/-- A state of the layout `cfg2` in which the frame `0x87FFF000` has just been freed (it is
the only entry of the free list, counter 0) and every other counter reads 1. -/
def oneFree : State := pushed cfg2 allOwned 2281697280

/-- The free-list/counter invariant: the free list is a list of frames of the managed range
without duplicates (`kfree` validates every address before it is linked in), and a frame of
the managed range is on the free list if and only if its counter is 0. -/
def InvFrames (c : Config) (s : State) : Prop :=
  ∃ l, FreeListIs s l ∧ l.Nodup ∧ (∀ p ∈ l, isFrame c p)
    ∧ ∀ p, isFrame c p → (p ∈ l ↔ (get_ref_count c s p).val? = some 0)

/-- Where one execution context stands inside `dec_ref_count(pa)`: before the read of the
slot for the argument `prev`, before the read for the argument `next`, before the call of
`cas`, after the loop and before the read of `get_ref_count`, or returned with a value. -/
inductive DecPc where
  | readPrev : DecPc
  | readNext (prev : Int) : DecPc
  | doCas (prev next : Int) : DecPc
  | readBack : DecPc
  | done (r : Int) : DecPc
  deriving DecidableEq

/-- One atomic action of an execution context inside `dec_ref_count(pa)` on the shared
state: a read of the slot, the `cas` (on failure the loop starts over), or the read of
`get_ref_count` whose value is returned. -/
def dec_step (c : Config) (pa : Nat) (s : State) : DecPc → State × DecPc
  | .readPrev => (s, .readNext (toInt32 (s.count_of_pages (place_of c pa))))
  | .readNext prev =>
    (s, .doCas prev (toInt32 (sub64 (s.count_of_pages (place_of c pa)) 1)))
  | .doCas prev next =>
    match cas s (place_of c pa) prev next with
    | (0, s') => (s', .readBack)
    | (_, s') => (s', .readPrev)
  | .readBack =>
    match get_ref_count c s pa with
    | .ret v s' => (s', .done v)
    | .panic _ => (s, .readBack)
    | .spin => (s, .readBack)
  | .done r => (s, .done r)

/-- An interleaving of two execution contexts that both run `dec_ref_count(pa)`: each
entry of the schedule lets the first (`true`) or the second (`false`) context take one
atomic action. -/
def dec_interleave (c : Config) (pa : Nat) :
    List Bool → State × DecPc × DecPc → State × DecPc × DecPc
  | [], x => x
  | true :: sch, (s, a, b) =>
    dec_interleave c pa sch ((dec_step c pa s a).1, (dec_step c pa s a).2, b)
  | false :: sch, (s, a, b) =>
    dec_interleave c pa sch ((dec_step c pa s b).1, a, (dec_step c pa s b).2)

/-! ## Machine words and the compare-and-swap loops -/


theorem ofInt32_toInt32 (v : Nat) : ofInt32 (toInt32 v) = v % U32 := by
  unfold ofInt32 toInt32 U32
  split <;> omega

theorem toInt32_word (h w : Nat) : toInt32 (h * U32 + w) = toInt32 w := by
  unfold toInt32 U32
  have : (h * 4294967296 + w) % 4294967296 = w % 4294967296 := by omega
  rw [this]

theorem toInt32_mod (v : Nat) : toInt32 (v % U32) = toInt32 v := by
  unfold toInt32 U32
  simp

theorem cas_same (s : State) (place : Nat) (next : Int) :
    cas s place (toInt32 (s.count_of_pages place)) next
      = (0, s.setCount place (s.count_of_pages place / U32 * U32 + ofInt32 next)) := by
  simp [cas]

theorem add64_one_word (v : Nat) : add64 v 1 % U32 = (v + 1) % U32 := by
  simp only [add64, U64, U32]
  omega

theorem sub64_one_word (v : Nat) : sub64 v 1 % U32 = (v + 4294967295) % U32 := by
  simp only [sub64, U64, U32]
  omega

theorem inc_loop_succ (place fuel : Nat) (s : State) :
    inc_loop place (fuel + 1) s
      = some (s.setCount place
          (s.count_of_pages place / U32 * U32 + (s.count_of_pages place + 1) % U32)) := by
  simp only [inc_loop, cas_same, ofInt32_toInt32, add64_one_word]

theorem dec_loop_succ (place fuel : Nat) (s : State) :
    dec_loop place (fuel + 1) s
      = some (s.setCount place
          (s.count_of_pages place / U32 * U32 + (s.count_of_pages place + 4294967295) % U32)) := by
  simp only [dec_loop, cas_same, ofInt32_toInt32, sub64_one_word]

/-! ## Pointers in memory and the intrusive list -/
theorem load64_store64 (m : Nat → Nat) (a v : Nat) (hv : v < U64) :
    load64 (store64 m a v) a = v := by
  simp only [U64] at hv
  have e1 : a + 1 - a = 1 := by omega
  have e2 : a + 2 - a = 2 := by omega
  have e3 : a + 3 - a = 3 := by omega
  have e4 : a + 4 - a = 4 := by omega
  have e5 : a + 5 - a = 5 := by omega
  have e6 : a + 6 - a = 6 := by omega
  have e7 : a + 7 - a = 7 := by omega
  simp only [load64, store64, e1, e2, e3, e4, e5, e6, e7, Nat.sub_self]
  norm_num
  omega

theorem load64_congr (m m' : Nat → Nat) (a : Nat)
    (h : ∀ x, a ≤ x → x < a + 8 → m' x = m x) : load64 m' a = load64 m a := by
  simp only [load64]
  rw [h a (by omega) (by omega), h (a + 1) (by omega) (by omega),
    h (a + 2) (by omega) (by omega), h (a + 3) (by omega) (by omega),
    h (a + 4) (by omega) (by omega), h (a + 5) (by omega) (by omega),
    h (a + 6) (by omega) (by omega), h (a + 7) (by omega) (by omega)]

theorem isChain_congr (m m' : Nat → Nat) :
    ∀ (l : List Nat) (h : Nat),
      (∀ q ∈ l, ∀ x, q ≤ x → x < q + 8 → m' x = m x) → isChain m h l → isChain m' h l
  | [], _, _, hc => hc
  | p :: l, h, hm, hc => by
    obtain ⟨h1, h2, h3⟩ := hc
    refine ⟨h1, h2, ?_⟩
    rw [load64_congr m m' p (hm p (List.mem_cons_self _ _))]
    exact isChain_congr m m' l _ (fun q hq => hm q (List.mem_cons_of_mem _ hq)) h3

theorem isChain_head (m : Nat → Nat) (l : List Nat) (h : Nat) (hc : isChain m h l) :
    h = 0 ∨ h ∈ l := by
  cases l with
  | nil => exact Or.inl hc
  | cons p l => exact Or.inr (by rw [hc.1]; exact List.mem_cons_self _ _)

theorem isChain_unique (m : Nat → Nat) :
    ∀ (l l' : List Nat) (h : Nat), isChain m h l → isChain m h l' → l = l'
  | [], [], _, _, _ => rfl
  | [], p :: l', h, hc, hc' => absurd (hc'.1.symm.trans hc) hc'.2.1
  | p :: l, [], h, hc, hc' => absurd (hc.1.symm.trans hc') hc.2.1
  | p :: l, p' :: l', h, hc, hc' => by
    have hp : p = p' := hc.1.symm.trans hc'.1
    subst hp
    rw [isChain_unique m l l' _ hc.2.2 hc'.2.2]

/-! ## One call of each routine -/

theorem get_ref_count_eq (c : Config) (s : State) (pa : Nat) :
    get_ref_count c s pa = .ret (toInt32 (s.count_of_pages (place_of c pa))) s := rfl

theorem setCount_same (s : State) (i v : Nat) : (s.setCount i v).count_of_pages i = v := by
  simp [State.setCount]

theorem setCount_other (s : State) (i j v : Nat) (h : j ≠ i) :
    (s.setCount i v).count_of_pages j = s.count_of_pages j := by
  simp [State.setCount, h]

theorem toInt32_split (v d : Nat) : toInt32 (v / U32 * U32 + (v + d) % U32) = toInt32 (v + d) := by
  rw [toInt32_word, toInt32_mod]

theorem dec_ref_count_succ (c : Config) (fuel : Nat) (s : State) (pa : Nat) :
    dec_ref_count c (fuel + 1) s pa
      = .ret (toInt32 (s.count_of_pages (place_of c pa) + 4294967295))
          (s.setCount (place_of c pa)
            (s.count_of_pages (place_of c pa) / U32 * U32
              + (s.count_of_pages (place_of c pa) + 4294967295) % U32)) := by
  simp only [dec_ref_count, dec_loop_succ, get_ref_count, setCount_same, toInt32_split]

theorem inc_ref_count_succ (c : Config) (fuel : Nat) (s : State) (pa : Nat) :
    inc_ref_count c (fuel + 1) s pa
      = .ret (toInt32 (s.count_of_pages (place_of c pa) + 1))
          (s.setCount (place_of c pa)
            (s.count_of_pages (place_of c pa) / U32 * U32
              + (s.count_of_pages (place_of c pa) + 1) % U32)) := by
  simp only [inc_ref_count, inc_loop_succ, get_ref_count, setCount_same, toInt32_split]

theorem kfree_push (c : Config) (fuel : Nat) (s : State) (pa : Nat)
    (h1 : pa % PGSIZE = 0) (h2 : c.kend ≤ pa) (h3 : pa < c.PHYSTOP)
    (h4 : toInt32 (s.count_of_pages (place_of c pa) + 4294967295) ≤ 0) :
    kfree c (fuel + 1) s pa = .ret () (pushed c s pa) := by
  have hv : ¬ (pa % PGSIZE ≠ 0 ∨ pa < c.kend ∨ pa ≥ c.PHYSTOP) := by omega
  simp only [kfree, if_neg hv, dec_ref_count_succ, if_neg (not_lt.mpr h4)]
  rfl

theorem kfree_keep (c : Config) (fuel : Nat) (s : State) (pa : Nat)
    (h1 : pa % PGSIZE = 0) (h2 : c.kend ≤ pa) (h3 : pa < c.PHYSTOP)
    (h4 : 0 < toInt32 (s.count_of_pages (place_of c pa) + 4294967295)) :
    kfree c (fuel + 1) s pa
      = .ret () (s.setCount (place_of c pa)
            (s.count_of_pages (place_of c pa) / U32 * U32
              + (s.count_of_pages (place_of c pa) + 4294967295) % U32)) := by
  have hv : ¬ (pa % PGSIZE ≠ 0 ∨ pa < c.kend ∨ pa ≥ c.PHYSTOP) := by omega
  simp only [kfree, if_neg hv, dec_ref_count_succ, gt_iff_lt, if_pos h4]

theorem kfree_panic (c : Config) (fuel : Nat) (s : State) (pa : Nat)
    (h : pa % PGSIZE ≠ 0 ∨ pa < c.kend ∨ pa ≥ c.PHYSTOP) :
    kfree c fuel s pa = .panic s := by
  simp only [kfree, if_pos h]

theorem isChain_push (m : Nat → Nat) (l : List Nat) (h pa : Nat)
    (hpa : pa ≠ 0) (hpal : pa % PGSIZE = 0) (hh : h < U64)
    (hl : ∀ q ∈ l, q % PGSIZE = 0 ∧ q ≠ pa) (hc : isChain m h l) :
    isChain (store64 (memset m pa 1 PGSIZE) pa h) pa (pa :: l) := by
  refine ⟨rfl, hpa, ?_⟩
  rw [load64_store64 _ _ _ hh]
  refine isChain_congr m _ l h ?_ hc
  intro q hq x hx1 hx2
  obtain ⟨ha, hne⟩ := hl q hq
  simp only [PGSIZE] at ha hpal
  have hout : ¬ (pa ≤ x ∧ x < pa + 4096) := by omega
  have hout8 : ¬ (pa ≤ x ∧ x < pa + 8) := by omega
  simp only [store64, memset, PGSIZE, if_neg hout, if_neg hout8]

theorem kalloc_empty (c : Config) (fuel : Nat) (s : State) (h : s.freelist = 0) :
    kalloc c fuel s = .ret 0 s := by
  simp [kalloc, h]

theorem kalloc_nonempty (c : Config) (fuel : Nat) (s : State) (h : s.freelist ≠ 0) :
    kalloc c (fuel + 1) s = .ret s.freelist (popped c s) := by
  simp only [kalloc, ne_eq, h, not_false_eq_true, if_true, inc_ref_count_succ]
  rfl

theorem isChain_pop (m : Nat → Nat) (l : List Nat) (h p : Nat) (c5 : Nat)
    (hpal : p % PGSIZE = 0) (hl : ∀ q ∈ l, q % PGSIZE = 0 ∧ q ≠ p)
    (hc : isChain m h (p :: l)) :
    isChain (memset m p c5 PGSIZE) (load64 m p) l := by
  refine isChain_congr m _ l _ ?_ hc.2.2
  intro q hq x hx1 hx2
  obtain ⟨ha, hne⟩ := hl q hq
  simp only [PGSIZE] at ha hpal
  have hout : ¬ (p ≤ x ∧ x < p + 4096) := by omega
  simp only [memset, PGSIZE, if_neg hout]

theorem place_of_eq (c : Config) (p : Nat) (h1 : c.KERNBASE ≤ p) (h2 : p < U64) :
    place_of c p = (p - c.KERNBASE) / PGSIZE := by
  simp only [place_of, sub64, U64] at *
  congr 1
  omega

theorem toInt32_dec_zero : toInt32 (0 + 4294967295) = -1 := by decide
theorem toInt32_dec_one : toInt32 (1 + 4294967295) = 0 := by decide

/-! ## The initialisation loop -/

theorem add64_page (p : Nat) (h : p + PGSIZE < U64) : add64 p PGSIZE = p + PGSIZE := by
  simp only [add64]
  exact Nat.mod_eq_of_lt h

theorem freerange_loop_spec (c : Config) (fuel index pa_end : Nat)
    (hK : c.KERNBASE % PGSIZE = 0) (hP : c.PHYSTOP + PGSIZE < U64) (hE : pa_end ≤ c.PHYSTOP) :
    ∀ (n iters p : Nat) (s : State) (l : List Nat),
      p % PGSIZE = 0 → 0 < p → c.kend ≤ p → c.KERNBASE ≤ p →
      p + n * PGSIZE ≤ pa_end → pa_end < p + (n + 1) * PGSIZE →
      index ≤ place_of c p →
      (∀ k, k < n → s.count_of_pages (place_of c p + k) = 0) →
      isChain s.mem s.freelist l → (∀ q ∈ l, q % PGSIZE = 0 ∧ q < p) →
      ∃ s', freerange_loop c (fuel + 1) index pa_end iters p s
            = (if n < iters then .ret () s' else .spin)
        ∧ (n = 0 → s' = s)
        ∧ isChain s'.mem s'.freelist ((framesFrom p n).reverse ++ l)
        ∧ (∀ j, j ≠ index → (j < place_of c p ∨ place_of c p + n ≤ j) →
            s'.count_of_pages j = s.count_of_pages j)
        ∧ (∀ k, k < n → place_of c p + k ≠ index →
            s'.count_of_pages (place_of c p + k) = 4294967295)
        ∧ (0 < n → s'.count_of_pages index
            = if index = place_of c p ∧ n = 1 then 0 else 1) := by
  intro n
  induction n with
  | zero =>
    intro iters p s l hpal hp0 hpe hpk hlo hhi hidx hcnt hc hl
    have hadd : add64 p PGSIZE = p + PGSIZE := add64_page p (by omega)
    have hcond : ¬ (add64 p PGSIZE ≤ pa_end) := by rw [hadd]; omega
    refine ⟨s, ?_, fun _ => rfl, ?_, ?_, ?_, ?_⟩
    · cases iters with
      | zero => simp [freerange_loop]
      | succ i => simp [freerange_loop, if_neg hcond]
    · simpa [framesFrom] using hc
    · intro j _ _; rfl
    · intro k hk; omega
    · intro h; omega
  | succ n ih =>
    intro iters p s l hpal hp0 hpe hpk hlo hhi hidx hcnt hc hl
    have hcond0 : p + PGSIZE ≤ pa_end := by
      have : (n + 1) * PGSIZE = n * PGSIZE + PGSIZE := by ring
      omega
    have hadd : add64 p PGSIZE = p + PGSIZE := add64_page p (by omega)
    have hcond : add64 p PGSIZE ≤ pa_end := by rw [hadd]; exact hcond0
    have hpP : p < c.PHYSTOP := by simp only [PGSIZE] at hcond0; omega
    have hpl : place_of c p = (p - c.KERNBASE) / PGSIZE := place_of_eq c p hpk (by omega)
    have hpl' : place_of c (p + PGSIZE) = place_of c p + 1 := by
      rw [hpl, place_of_eq c (p + PGSIZE) (by omega) (by simp only [PGSIZE] at *; omega)]
      simp only [PGSIZE] at *
      omega
    -- the counter of `p` just before `kfree(p)`
    have hslot : toInt32 ((s.setCount index 1).count_of_pages (place_of c p) + 4294967295) ≤ 0 := by
      by_cases hi : place_of c p = index
      · rw [hi, setCount_same, toInt32_dec_one]
      · rw [setCount_other _ _ _ _ hi, show place_of c p = place_of c p + 0 from rfl,
          hcnt 0 (by omega), toInt32_dec_zero]; decide
    have hfree := kfree_push c fuel (s.setCount index 1) p hpal hpe hpP hslot
    have hhead : s.freelist < U64 := by
      rcases isChain_head _ _ _ hc with h0 | hm
      · rw [h0]; decide
      · have := (hl _ hm).2; omega
    have hc2 : isChain (pushed c (s.setCount index 1) p).mem
        (pushed c (s.setCount index 1) p).freelist (p :: l) :=
      isChain_push s.mem l s.freelist p (by omega) hpal hhead
        (fun q hq => ⟨(hl q hq).1, by have := (hl q hq).2; omega⟩) hc
    obtain ⟨s', hrun, hz, hch, hA, hB, hC⟩ := ih (iters - 1) (p + PGSIZE)
      (pushed c (s.setCount index 1) p)
      (p :: l) (by simp only [PGSIZE] at *; omega) (by omega)
      (by omega) (by omega)
      (by have : (n + 1) * PGSIZE = n * PGSIZE + PGSIZE := by ring
          omega)
      (by have : (n + 1 + 1) * PGSIZE = (n + 1) * PGSIZE + PGSIZE := by ring
          omega)
      (by omega)
      (by intro k hk
          have h1 : place_of c (p + PGSIZE) + k ≠ place_of c p := by omega
          have h2 : place_of c (p + PGSIZE) + k ≠ index := by omega
          simp only [pushed]
          rw [setCount_other _ _ _ _ h1, setCount_other _ _ _ _ h2, hpl',
            show place_of c p + 1 + k = place_of c p + (k + 1) by omega]
          exact hcnt (k + 1) (by omega))
      hc2
      (by intro q hq
          rcases List.mem_cons.mp hq with rfl | hq
          · exact ⟨hpal, by simp only [PGSIZE]; omega⟩
          · exact ⟨(hl q hq).1, by have := (hl q hq).2; omega⟩)
    refine ⟨s', ?_, fun h => by omega, ?_, ?_, ?_, ?_⟩
    · cases iters with
      | zero => simp [freerange_loop]
      | succ i =>
        simp only [Nat.add_sub_cancel] at hrun
        rw [freerange_loop, if_pos hcond, hfree]
        simp only [hadd, hrun, Nat.add_lt_add_iff_right]
    · simpa [framesFrom] using hch
    · intro j hj hout
      rw [hA j hj (by omega)]
      simp only [pushed]
      rw [setCount_other _ _ _ _ (by omega), setCount_other _ _ _ _ hj]
    · intro k hk hne
      rcases Nat.eq_zero_or_pos k with rfl | hkpos
      · rw [hA _ hne (by omega)]
        simp only [pushed, Nat.add_zero] at hne ⊢
        rw [setCount_same, setCount_other _ _ _ _ hne,
          show place_of c p = place_of c p + 0 from rfl, hcnt 0 (by omega)]
        simp [U32]
      · have := hB (k - 1) (by omega) (by rw [hpl']; intro h; apply hne; omega)
        rw [hpl', show place_of c p + 1 + (k - 1) = place_of c p + k by omega] at this
        exact this
    · intro _
      rcases Nat.eq_zero_or_pos n with rfl | hnpos
      · -- `p` was the only frame
        rw [hz rfl]
        by_cases hi : index = place_of c p
        · simp only [pushed, hi, setCount_same, and_self, if_true]
          simp [U32]
        · simp only [pushed]
          rw [setCount_other _ _ _ _ hi, setCount_same]
          simp [hi]
      · have := hC hnpos
        rw [this, if_neg (by omega), if_neg (by omega)]

/-! ## The frames of the managed range -/

theorem length_framesFrom : ∀ (n p : Nat), (framesFrom p n).length = n
  | 0, _ => rfl
  | n + 1, p => by simp [framesFrom, length_framesFrom n]

theorem mem_framesFrom : ∀ (n p q : Nat), p % PGSIZE = 0 →
    (q ∈ framesFrom p n ↔ q % PGSIZE = 0 ∧ p ≤ q ∧ q < p + n * PGSIZE)
  | 0, p, q, _ => by simp [framesFrom]
  | n + 1, p, q, hp => by
    have hp' : (p + PGSIZE) % PGSIZE = 0 := by simp only [PGSIZE] at *; omega
    have e : (n + 1) * PGSIZE = n * PGSIZE + PGSIZE := by ring
    simp only [framesFrom, List.mem_cons, mem_framesFrom n (p + PGSIZE) q hp', e]
    simp only [PGSIZE] at *
    constructor
    · rintro (rfl | ⟨h1, h2, h3⟩)
      · omega
      · omega
    · rintro ⟨h1, h2, h3⟩
      by_cases h : q = p
      · exact Or.inl h
      · exact Or.inr (by omega)

theorem nodup_framesFrom : ∀ (n p : Nat), p % PGSIZE = 0 → (framesFrom p n).Nodup
  | 0, _, _ => by simp [framesFrom]
  | n + 1, p, hp => by
    have hp' : (p + PGSIZE) % PGSIZE = 0 := by simp only [PGSIZE] at *; omega
    simp only [framesFrom, List.nodup_cons, mem_framesFrom n (p + PGSIZE) p hp']
    exact ⟨by simp only [PGSIZE]; omega, nodup_framesFrom n (p + PGSIZE) hp'⟩

theorem PGROUNDUP_spec (c : Config) (hwf : c.wf) :
    PGROUNDUP c.kend % PGSIZE = 0 ∧ c.kend ≤ PGROUNDUP c.kend
      ∧ PGROUNDUP c.kend < c.kend + PGSIZE ∧ PGROUNDUP c.kend ≤ c.PHYSTOP := by
  obtain ⟨h1, h2, h3, h4, h5, h6⟩ := hwf
  simp only [PGROUNDUP, add64, PGSIZE, U64] at *
  omega

theorem nframes_spec (c : Config) (hwf : c.wf) :
    PGROUNDUP c.kend + nframes c * PGSIZE ≤ c.PHYSTOP
      ∧ c.PHYSTOP < PGROUNDUP c.kend + (nframes c + 1) * PGSIZE := by
  have hr := PGROUNDUP_spec c hwf
  simp only [nframes, PGSIZE] at *
  omega

theorem mem_frames (c : Config) (hwf : c.wf) (q : Nat) :
    q ∈ frames c ↔ q % PGSIZE = 0 ∧ PGROUNDUP c.kend ≤ q ∧ q + PGSIZE ≤ c.PHYSTOP := by
  have hr := PGROUNDUP_spec c hwf
  have hn := nframes_spec c hwf
  have hP := hwf.2.1
  rw [frames, mem_framesFrom _ _ _ hr.1]
  simp only [PGSIZE] at *
  constructor
  · rintro ⟨h1, h2, h3⟩; omega
  · rintro ⟨h1, h2, h3⟩; omega

theorem kinit_spec (c : Config) (hwf : c.wf) (s : State) (hs : s.freelist = 0) (fuel : Nat) :
    ∃ s', kinit c fuel s = (if nframes c < fuel then .ret () s' else .spin)
      ∧ FreeListIs s' (frames c).reverse
      ∧ (∀ k, 0 < k → k < nframes c →
          s'.count_of_pages (place_of c (PGROUNDUP c.kend) + k) = 4294967295)
      ∧ (0 < nframes c → s'.count_of_pages (place_of c (PGROUNDUP c.kend))
          = if nframes c = 1 then 0 else 1) := by
  have hr := PGROUNDUP_spec c hwf
  have hn := nframes_spec c hwf
  obtain ⟨h1, h2, h3, h4, h5, h6⟩ := hwf
  have hpl := place_of_eq c (PGROUNDUP c.kend) (by omega) (by omega)
  obtain ⟨s', hrun, -, hch, -, hB, hC⟩ := freerange_loop_spec c (fuel - 1)
    (place_of c (PGROUNDUP c.kend)) c.PHYSTOP h1 h6 le_rfl (nframes c) fuel (PGROUNDUP c.kend)
    { s with count_of_pages := fun i =>
        if i < (c.PHYSTOP - c.KERNBASE) / PGSIZE then 0 else s.count_of_pages i } []
    hr.1 (by omega) hr.2.1 (by omega) hn.1 hn.2 le_rfl
    (by intro k hk
        have : place_of c (PGROUNDUP c.kend) + k < (c.PHYSTOP - c.KERNBASE) / PGSIZE := by
          rw [hpl]; simp only [PGSIZE] at *; omega
        simp only [if_pos this])
    hs (by simp)
  refine ⟨s', ?_, by simpa [FreeListIs] using hch, ?_, ?_⟩
  · cases fuel with
    | zero => simp [kinit, freerange, freerange_loop]
    | succ f =>
      simp only [Nat.add_sub_cancel] at hrun
      simp only [kinit, freerange, place_of] at hrun ⊢
      exact hrun
  · intro k hk0 hk
    exact hB k hk (by omega)
  · intro h
    simpa using hC h

/-! ## Sequences of allocations -/

theorem kalloc_seq_spec (c : Config) (fuel : Nat) :
    ∀ (n : Nat) (l : List Nat) (s : State),
      isChain s.mem s.freelist l → (∀ q ∈ l, q % PGSIZE = 0) → l.Nodup →
      ∃ s', kalloc_seq c (fuel + 1) n s
          = some (l.take n ++ List.replicate (n - l.length) 0, s')
        ∧ isChain s'.mem s'.freelist (l.drop n)
  | 0, l, s, hc, _, _ => ⟨s, by simp [kalloc_seq], by simpa using hc⟩
  | n + 1, [], s, hc, _, _ => by
    have h0 : s.freelist = 0 := hc
    obtain ⟨s', hrun, hch⟩ := kalloc_seq_spec c fuel n [] s hc (by simp) (by simp)
    refine ⟨s', ?_, by simpa using hch⟩
    simp only [kalloc_seq, kalloc_empty c _ s h0, hrun]
    simp [List.replicate_succ]
  | n + 1, p :: l, s, hc, hal, hnd => by
    have hp : s.freelist = p := hc.1
    have hne : s.freelist ≠ 0 := by rw [hp]; exact hc.2.1
    have hnd' := List.nodup_cons.mp hnd
    have hc' : isChain (popped c s).mem (popped c s).freelist l := by
      simp only [popped, hp]
      exact isChain_pop s.mem l s.freelist p 5 (hal p (List.mem_cons_self _ _))
        (fun q hq => ⟨hal q (List.mem_cons_of_mem _ hq), fun h => hnd'.1 (h ▸ hq)⟩) hc
    obtain ⟨s', hrun, hch⟩ := kalloc_seq_spec c fuel n l (popped c s) hc'
      (fun q hq => hal q (List.mem_cons_of_mem _ hq)) hnd'.2
    refine ⟨s', ?_, by simpa using hch⟩
    simp only [kalloc_seq, kalloc_nonempty c fuel s hne, hrun, hp]
    simp

theorem kinit_then_kalloc_seq (c : Config) (hwf : c.wf) (s : State) (hs : s.freelist = 0)
    (fuel : Nat) (hf : nframes c < fuel) (n : Nat) :
    ∃ s0 s1, kinit c fuel s = .ret () s0
      ∧ kalloc_seq c fuel n s0
          = some ((frames c).reverse.take n ++ List.replicate (n - nframes c) 0, s1)
      ∧ FreeListIs s1 ((frames c).reverse.drop n) := by
  obtain ⟨s0, hrun, hch, -, -⟩ := kinit_spec c hwf s hs fuel
  rw [if_pos hf] at hrun
  obtain ⟨f, rfl⟩ : ∃ f, fuel = f + 1 := ⟨fuel - 1, by omega⟩
  have hr := PGROUNDUP_spec c hwf
  obtain ⟨s1, hseq, hch1⟩ := kalloc_seq_spec c f n (frames c).reverse s0 hch
    (fun q hq => ((mem_frames c hwf q).mp (List.mem_reverse.mp hq)).1)
    (List.nodup_reverse.mpr (nodup_framesFrom _ _ hr.1))
  refine ⟨s0, s1, hrun, ?_, hch1⟩
  rw [hseq]
  simp [frames, length_framesFrom]

/-! ## Counters after initialisation, for every layout with at least two frames -/

theorem framesFrom_snoc : ∀ (n p : Nat),
    framesFrom p (n + 1) = framesFrom p n ++ [p + n * PGSIZE]
  | 0, p => by simp [framesFrom]
  | n + 1, p => by
    have e : p + PGSIZE + n * PGSIZE = p + (n + 1) * PGSIZE := by ring
    rw [framesFrom, framesFrom_snoc n (p + PGSIZE), e]
    rfl

theorem frames_reverse (c : Config) (h : 0 < nframes c) :
    (frames c).reverse
      = (PGROUNDUP c.kend + (nframes c - 1) * PGSIZE)
          :: (framesFrom (PGROUNDUP c.kend) (nframes c - 1)).reverse := by
  obtain ⟨k, hk⟩ : ∃ k, nframes c = k + 1 := ⟨nframes c - 1, by omega⟩
  simp [frames, hk, framesFrom_snoc]

theorem place_of_frame (c : Config) (hwf : c.wf) (k : Nat) (hk : k < nframes c) :
    place_of c (PGROUNDUP c.kend + k * PGSIZE) = place_of c (PGROUNDUP c.kend) + k := by
  have hr := PGROUNDUP_spec c hwf
  have hn := nframes_spec c hwf
  obtain ⟨h1, h2, h3, h4, h5, h6⟩ := hwf
  have hkn : k * PGSIZE < nframes c * PGSIZE := by
    simp only [PGSIZE]; omega
  rw [place_of_eq c _ (by omega) (by omega), place_of_eq c _ (by omega) (by omega)]
  simp only [PGSIZE] at *
  omega

theorem frame_index (c : Config) (hwf : c.wf) (q : Nat) (hq : q ∈ frames c) :
    ∃ k, k < nframes c ∧ q = PGROUNDUP c.kend + k * PGSIZE := by
  have hr := PGROUNDUP_spec c hwf
  rw [frames, mem_framesFrom _ _ _ hr.1] at hq
  refine ⟨(q - PGROUNDUP c.kend) / PGSIZE, ?_, ?_⟩
  · simp only [PGSIZE] at *; omega
  · simp only [PGSIZE] at *; omega

theorem kinit_counters (c : Config) (hwf : c.wf) (s : State) (hs : s.freelist = 0)
    (fuel : Nat) (hf : nframes c < fuel) (h2 : 2 ≤ nframes c) :
    ∃ s0, kinit c fuel s = .ret () s0 ∧ FreeListIs s0 (frames c).reverse
      ∧ get_ref_count c s0 (PGROUNDUP c.kend) = .ret 1 s0
      ∧ ∀ p ∈ frames c, p ≠ PGROUNDUP c.kend → get_ref_count c s0 p = .ret (-1) s0 := by
  obtain ⟨s0, hrun, hch, hB, hC⟩ := kinit_spec c hwf s hs fuel
  rw [if_pos hf] at hrun
  refine ⟨s0, hrun, hch, ?_, ?_⟩
  · rw [get_ref_count_eq, hC (by omega), if_neg (by omega)]
    rfl
  · intro p hp hne
    obtain ⟨k, hk, rfl⟩ := frame_index c hwf p hp
    have hk0 : 0 < k := by
      rcases Nat.eq_zero_or_pos k with rfl | h
      · simp at hne
      · exact h
    rw [get_ref_count_eq, place_of_frame c hwf k hk, hB k hk0 hk]
    rfl

theorem first_kalloc_after_kinit (c : Config) (hwf : c.wf) (s : State) (hs : s.freelist = 0)
    (fuel : Nat) (hf : nframes c < fuel) (h2 : 2 ≤ nframes c) :
    ∃ s0 s1, kinit c fuel s = .ret () s0
      ∧ kalloc c fuel s0 = .ret (PGROUNDUP c.kend + (nframes c - 1) * PGSIZE) s1
      ∧ get_ref_count c s1 (PGROUNDUP c.kend + (nframes c - 1) * PGSIZE) = .ret 0 s1 := by
  obtain ⟨s0, hrun, hch, hB, -⟩ := kinit_spec c hwf s hs fuel
  rw [if_pos hf] at hrun
  obtain ⟨f, rfl⟩ : ∃ f, fuel = f + 1 := ⟨fuel - 1, by omega⟩
  rw [FreeListIs, frames_reverse c (by omega)] at hch
  have hhead : s0.freelist = PGROUNDUP c.kend + (nframes c - 1) * PGSIZE := hch.1
  have hne : s0.freelist ≠ 0 := by rw [hhead]; exact hch.2.1
  refine ⟨s0, popped c s0, hrun, ?_, ?_⟩
  · rw [kalloc_nonempty c f s0 hne, hhead]
  · rw [get_ref_count_eq]
    simp only [popped, hhead, setCount_same]
    rw [place_of_frame c hwf _ (by omega), hB _ (by omega) (by omega)]
    rfl

theorem kalloc_seq_counts (c : Config) (fuel : Nat) :
    ∀ (n : Nat) (l : List Nat) (s : State) (res : List Nat) (s' : State),
      isChain s.mem s.freelist l → (∀ q ∈ l, q % PGSIZE = 0) → l.Nodup →
      (∀ q ∈ l, ∀ q' ∈ l, place_of c q = place_of c q' → q = q') →
      kalloc_seq c (fuel + 1) n s = some (res, s') →
      (∀ j, (∀ q ∈ l.take n, place_of c q ≠ j) → s'.count_of_pages j = s.count_of_pages j)
        ∧ (∀ q ∈ l.take n, s'.count_of_pages (place_of c q)
            = s.count_of_pages (place_of c q) / U32 * U32
              + (s.count_of_pages (place_of c q) + 1) % U32)
  | 0, l, s, res, s', _, _, _, _, h => by
    simp only [kalloc_seq, Option.some.injEq, Prod.mk.injEq] at h
    rw [← h.2]
    exact ⟨fun _ _ => rfl, by simp⟩
  | n + 1, [], s, res, s', hc, _, _, _, h => by
    have h0 : s.freelist = 0 := hc
    simp only [kalloc_seq, kalloc_empty c _ s h0, Option.map_eq_some'] at h
    obtain ⟨⟨r, t⟩, hin, heq⟩ := h
    simp only [Prod.mk.injEq] at heq
    rw [← heq.2]
    have ih := kalloc_seq_counts c fuel n [] s r t hc (by simp) (by simp) (by simp) hin
    exact ⟨fun j _ => ih.1 j (by simp), by simp⟩
  | n + 1, p :: l, s, res, s', hc, hal, hnd, hinj, h => by
    have hp : s.freelist = p := hc.1
    have hne : s.freelist ≠ 0 := by rw [hp]; exact hc.2.1
    have hnd' := List.nodup_cons.mp hnd
    have hc' : isChain (popped c s).mem (popped c s).freelist l := by
      simp only [popped, hp]
      exact isChain_pop s.mem l s.freelist p 5 (hal p (List.mem_cons_self _ _))
        (fun q hq => ⟨hal q (List.mem_cons_of_mem _ hq), fun h => hnd'.1 (h ▸ hq)⟩) hc
    simp only [kalloc_seq, kalloc_nonempty c fuel s hne, Option.map_eq_some'] at h
    obtain ⟨⟨r, t⟩, hin, heq⟩ := h
    simp only [Prod.mk.injEq] at heq
    rw [← heq.2]
    have ih := kalloc_seq_counts c fuel n l (popped c s) r t hc'
      (fun q hq => hal q (List.mem_cons_of_mem _ hq)) hnd'.2
      (fun q hq q' hq' => hinj q (List.mem_cons_of_mem _ hq) q' (List.mem_cons_of_mem _ hq'))
      hin
    have hother : ∀ q ∈ l, place_of c q ≠ place_of c p := by
      intro q hq he
      have := hinj q (List.mem_cons_of_mem _ hq) p (List.mem_cons_self _ _) he
      exact hnd'.1 (this ▸ hq)
    have hpop_same : (popped c s).count_of_pages (place_of c p)
        = s.count_of_pages (place_of c p) / U32 * U32
          + (s.count_of_pages (place_of c p) + 1) % U32 := by
      simp only [popped, hp, setCount_same]
    have hpop_other : ∀ j, j ≠ place_of c p →
        (popped c s).count_of_pages j = s.count_of_pages j := by
      intro j hj
      simp only [popped, hp]
      exact setCount_other _ _ _ _ hj
    constructor
    · intro j hj
      simp only [List.take_succ_cons, List.mem_cons, forall_eq_or_imp] at hj
      rw [ih.1 j hj.2, hpop_other j (Ne.symm hj.1)]
    · intro q hq
      simp only [List.take_succ_cons, List.mem_cons] at hq
      rcases hq with rfl | hq
      · rw [ih.1 _ (fun q' hq' => hother q' (List.mem_of_mem_take hq')), hpop_same]
      · rw [ih.2 q hq, hpop_other _ (hother q (List.mem_of_mem_take hq))]

theorem place_of_inj_frames (c : Config) (hwf : c.wf) (q : Nat) (hq : q ∈ frames c)
    (q' : Nat) (hq' : q' ∈ frames c) (h : place_of c q = place_of c q') : q = q' := by
  obtain ⟨k, hk, rfl⟩ := frame_index c hwf q hq
  obtain ⟨k', hk', rfl⟩ := frame_index c hwf q' hq'
  rw [place_of_frame c hwf k hk, place_of_frame c hwf k' hk'] at h
  have : k = k' := by omega
  rw [this]

theorem kfree_lowest_after_exhaustion (c : Config) (hwf : c.wf) (s : State)
    (hs : s.freelist = 0) (fuel : Nat) (hf : nframes c < fuel) (h2 : 2 ≤ nframes c) :
    ∃ s0 ps sK s', kinit c fuel s = .ret () s0
      ∧ kalloc_seq c fuel (nframes c) s0 = some (ps, sK)
      ∧ PGROUNDUP c.kend ∈ ps ∧ (∀ p ∈ ps, p ≠ 0)
      ∧ kfree c fuel sK (PGROUNDUP c.kend) = .ret () s'
      ∧ get_ref_count c s' (PGROUNDUP c.kend) = .ret 1 s'
      ∧ kalloc c fuel s' = .ret 0 s' := by
  obtain ⟨s0, hrun, hch, -, hC⟩ := kinit_spec c hwf s hs fuel
  rw [if_pos hf] at hrun
  obtain ⟨f, rfl⟩ : ∃ f, fuel = f + 1 := ⟨fuel - 1, by omega⟩
  have hr := PGROUNDUP_spec c hwf
  have hn := nframes_spec c hwf
  have hlen : (frames c).reverse.length = nframes c := by simp [frames, length_framesFrom]
  have hal : ∀ q ∈ (frames c).reverse, q % PGSIZE = 0 :=
    fun q hq => ((mem_frames c hwf q).mp (List.mem_reverse.mp hq)).1
  have hnd : (frames c).reverse.Nodup :=
    List.nodup_reverse.mpr (nodup_framesFrom _ _ hr.1)
  obtain ⟨sK, hseq, hchK⟩ := kalloc_seq_spec c f (nframes c) (frames c).reverse s0 hch hal hnd
  have hcnt := kalloc_seq_counts c f (nframes c) (frames c).reverse s0 _ sK hch hal hnd
    (fun q hq q' hq' => place_of_inj_frames c hwf q (List.mem_reverse.mp hq) q'
      (List.mem_reverse.mp hq')) hseq
  rw [List.take_of_length_le (by omega), hlen, Nat.sub_self] at hseq
  rw [List.take_of_length_le (by omega)] at hcnt
  rw [List.drop_of_length_le (by omega)] at hchK
  have hlow : PGROUNDUP c.kend ∈ frames c := by
    rw [mem_frames c hwf]
    refine ⟨hr.1, le_rfl, ?_⟩
    simp only [PGSIZE] at *; omega
  have hK : sK.count_of_pages (place_of c (PGROUNDUP c.kend)) = 2 := by
    rw [hcnt.2 _ (List.mem_reverse.mpr hlow), hC (by omega), if_neg (by omega)]
    simp [U32]
  have hfree0 : sK.freelist = 0 := hchK
  have hkeep := kfree_keep c f sK (PGROUNDUP c.kend) hr.1 hr.2.1
    (by simp only [PGSIZE] at *; omega) (by rw [hK]; decide)
  refine ⟨s0, (frames c).reverse, sK, _, hrun, by simpa using hseq,
    List.mem_reverse.mpr hlow, ?_, hkeep, ?_, ?_⟩
  · intro p hp h0
    have hm := (mem_frames c hwf p).mp (List.mem_reverse.mp hp)
    have := hwf.2.2.2.2.1
    omega
  · rw [get_ref_count_eq, setCount_same, hK]
    rfl
  · exact kalloc_empty c _ _ hfree0

/-! ## The claims -/

/-- Claim C1, evaluated on the code: with two frames, the first `kalloc()` after `kinit`
returns the frame `0x87FFF000` and leaves `get_ref_count` of it at 0, not at 1 (the slot was
at -1 after `kinit`, because `freerange` never set it to 1). -/
theorem first_kalloc_counter_is_zero :
    ((kinit cfg2 3 boot0).bind fun _ s0 =>
      (kalloc cfg2 3 s0).bind fun p s1 =>
        (get_ref_count cfg2 s1 p).bind fun v s2 => .ret (p, v) s2).val?
      = some (2281697280, 0) := by
  decide

/-- Claim C2, evaluated on the code: with two frames, after `kinit` the counter of the
lowest frame `0x87FFE000` reads 1 and the counter of the frame `0x87FFF000` reads -1;
neither reads 0. -/
theorem kinit_counters_not_zero :
    ((kinit cfg2 3 boot0).bind fun _ s0 =>
      (get_ref_count cfg2 s0 2281693184).bind fun v s1 =>
        (get_ref_count cfg2 s1 2281697280).bind fun w s2 => .ret (v, w) s2).val?
      = some (1, -1) := by
  decide

/-- Claim C3: for page-aligned `KERNBASE` and `PHYSTOP` with `KERNBASE <= end <= PHYSTOP`,
`kinit` reaches `panic` for no amount of fuel, it returns once the fuel exceeds the number
of frames, and the free list it leaves holds exactly the page-aligned frames `p` with
`PGROUNDUP(end) <= p` and `p + PGSIZE <= PHYSTOP`, each once. -/
theorem kinit_populates_free_list (c : Config) (hwf : c.wf) (s : State) (hs : s.freelist = 0)
    (fuel : Nat) (hf : nframes c < fuel) :
    (∀ f, (kinit c f s).isPanic = false)
      ∧ ∃ s0 l, kinit c fuel s = .ret () s0 ∧ FreeListIs s0 l ∧ l.Nodup
        ∧ ∀ p, p ∈ l ↔ (p % PGSIZE = 0 ∧ PGROUNDUP c.kend ≤ p ∧ p + PGSIZE ≤ c.PHYSTOP) := by
  refine ⟨fun f => ?_, ?_⟩
  · obtain ⟨s1, hrun, -⟩ := kinit_spec c hwf s hs f
    rw [hrun]
    split <;> rfl
  obtain ⟨s0, hrun, hch, -, -⟩ := kinit_spec c hwf s hs fuel
  rw [if_pos hf] at hrun
  refine ⟨s0, (frames c).reverse, hrun, hch,
    List.nodup_reverse.mpr (nodup_framesFrom _ _ (PGROUNDUP_spec c hwf).1), ?_⟩
  intro p
  rw [List.mem_reverse, mem_frames c hwf p]

theorem kinit_populates_free_list_witness :
    cfg2.wf ∧ boot0.freelist = 0 ∧ nframes cfg2 < 3 ∧
      (∀ f, (kinit cfg2 f boot0).isPanic = false)
      ∧ ∃ s0 l, kinit cfg2 3 boot0 = .ret () s0 ∧ FreeListIs s0 l ∧ l.Nodup
        ∧ ∀ p, p ∈ l ↔ (p % PGSIZE = 0 ∧ PGROUNDUP cfg2.kend ≤ p ∧ p + PGSIZE ≤ cfg2.PHYSTOP) :=
  ⟨by decide, rfl, by decide,
    kinit_populates_free_list cfg2 (by decide) boot0 rfl 3 (by decide)⟩

/-- Claim C4: after `kinit`, whatever the number `n` of successive `kalloc()` calls (no
`kfree` in between), every call returns and the non-null addresses returned are pairwise
distinct. -/
theorem kalloc_no_double_hand_out (c : Config) (hwf : c.wf) (s : State) (hs : s.freelist = 0)
    (fuel : Nat) (hf : nframes c < fuel) (n : Nat) :
    ∃ s0 ps s1, kinit c fuel s = .ret () s0 ∧ kalloc_seq c fuel n s0 = some (ps, s1)
      ∧ (ps.filter (fun p => p ≠ 0)).Nodup := by
  obtain ⟨s0, s1, hrun, hseq, -⟩ := kinit_then_kalloc_seq c hwf s hs fuel hf n
  refine ⟨s0, _, s1, hrun, hseq, ?_⟩
  have hnd : (frames c).reverse.Nodup :=
    List.nodup_reverse.mpr (nodup_framesFrom _ _ (PGROUNDUP_spec c hwf).1)
  have h0 : (List.replicate (n - nframes c) 0).filter (fun p => decide (p ≠ 0)) = [] := by
    rw [List.filter_eq_nil_iff]
    intro a ha
    simp [(List.mem_replicate.mp ha).2]
  rw [List.filter_append, h0, List.append_nil]
  exact ((List.take_sublist n _).nodup hnd).filter _

theorem kalloc_no_double_hand_out_witness :
    cfg2.wf ∧ boot0.freelist = 0 ∧ nframes cfg2 < 3 ∧
      ∃ s0 ps s1, kinit cfg2 3 boot0 = .ret () s0 ∧ kalloc_seq cfg2 3 4 s0 = some (ps, s1)
        ∧ (ps.filter (fun p => p ≠ 0)).Nodup :=
  ⟨by decide, rfl, by decide,
    kalloc_no_double_hand_out cfg2 (by decide) boot0 rfl 3 (by decide) 4⟩

/-- Claim C5: when the managed range holds `K = nframes c` frames, after `kinit` the first
`K` calls of `kalloc()` return non-null addresses and call number `K + 1` returns 0. -/
theorem kalloc_exhaustion (c : Config) (hwf : c.wf) (s : State) (hs : s.freelist = 0)
    (fuel : Nat) (hf : nframes c < fuel) :
    ∃ s0 ps s1, kinit c fuel s = .ret () s0
      ∧ kalloc_seq c fuel (nframes c + 1) s0 = some (ps ++ [0], s1)
      ∧ ps.length = nframes c ∧ ∀ p ∈ ps, p ≠ 0 := by
  obtain ⟨s0, s1, hrun, hseq, -⟩ := kinit_then_kalloc_seq c hwf s hs fuel hf (nframes c + 1)
  have hlen : (frames c).reverse.length = nframes c := by
    simp [frames, length_framesFrom]
  refine ⟨s0, (frames c).reverse, s1, hrun, ?_, hlen, ?_⟩
  · rw [hseq, List.take_of_length_le (by omega)]
    simp
  · intro p hp h0
    have hm := (mem_frames c hwf p).mp (List.mem_reverse.mp hp)
    have hr := PGROUNDUP_spec c hwf
    have := hwf.2.2.2.2.1
    omega

theorem kalloc_exhaustion_witness :
    cfg2.wf ∧ boot0.freelist = 0 ∧ nframes cfg2 < 3 ∧
      ∃ s0 ps s1, kinit cfg2 3 boot0 = .ret () s0
        ∧ kalloc_seq cfg2 3 (nframes cfg2 + 1) s0 = some (ps ++ [0], s1)
        ∧ ps.length = nframes cfg2 ∧ ∀ p ∈ ps, p ≠ 0 :=
  ⟨by decide, rfl, by decide, kalloc_exhaustion cfg2 (by decide) boot0 rfl 3 (by decide)⟩

/-- Claim C6, evaluated on the code: with two frames, `kinit` and two successful `kalloc()`
calls return `0x87FFF000` and then `0x87FFE000`; after a single `kfree(0x87FFE000)` the next
`kalloc()` still returns 0, because the counter of that frame went from 2 to 1 and the frame
was not put back. -/
theorem kfree_lowest_frame_not_reusable :
    ((kinit cfg2 3 boot0).bind fun _ s0 =>
      (kalloc cfg2 3 s0).bind fun p1 s1 =>
        (kalloc cfg2 3 s1).bind fun p2 s2 =>
          (kfree cfg2 3 s2 p2).bind fun _ s3 =>
            (kalloc cfg2 3 s3).bind fun p3 s4 => .ret (p1, p2, p3) s4).val?
      = some (2281697280, 2281693184, 0) := by
  decide

/-- Claim C7, evaluated on the code: with two frames, after `kinit` the first `kalloc()`
returns `p = 0x87FFF000`; after n = 2 calls of `inc_ref_count(p)` and m = 1 call of
`dec_ref_count(p)` the counter reads 1, not 1 + n - m = 2. -/
theorem refcount_arithmetic_off_by_one :
    ((kinit cfg2 3 boot0).bind fun _ s0 =>
      (kalloc cfg2 3 s0).bind fun p s1 =>
        (inc_ref_count cfg2 3 s1 p).bind fun _ s2 =>
          (inc_ref_count cfg2 3 s2 p).bind fun _ s3 =>
            (dec_ref_count cfg2 3 s3 p).bind fun _ s4 =>
              (get_ref_count cfg2 s4 p).bind fun v s5 => .ret (p, v) s5).val?
      = some (2281697280, 1) := by
  decide

theorem toInt32_succ (v : Nat) (h : toInt32 v < 2147483647) :
    toInt32 (v + 1) = toInt32 v + 1 := by
  simp only [toInt32, U32] at *
  split at h <;> split <;> omega

theorem toInt32_pred (v : Nat) (h : -2147483648 < toInt32 v) :
    toInt32 (v + 4294967295) = toInt32 v - 1 := by
  simp only [toInt32, U32] at *
  split at h <;> split <;> omega

/-- Claim C8: in every state, for every page-aligned address `a` of the managed range
whose counter reads `n` with `0 <= n < 2^31 - 1`: `get_ref_count(a)` returns `n` in the
unchanged state; `inc_ref_count(a)` returns `n + 1` and `get_ref_count(a)` then reads
`n + 1`; and when `n >= 1`, `dec_ref_count(a)` returns `n - 1` and `get_ref_count(a)` then
reads `n - 1`. -/
theorem refcount_post_values (c : Config) (fuel : Nat) (s : State) (a : Nat) (n : Int)
    (_hal : a % PGSIZE = 0) (_hlo : c.kend ≤ a) (_hhi : a < c.PHYSTOP)
    (hn : (get_ref_count c s a).val? = some n) (h0 : 0 ≤ n) (h1 : n < 2147483647) :
    get_ref_count c s a = .ret n s
      ∧ (∃ s1, inc_ref_count c (fuel + 1) s a = .ret (n + 1) s1
          ∧ get_ref_count c s1 a = .ret (n + 1) s1)
      ∧ (1 ≤ n → ∃ s2, dec_ref_count c (fuel + 1) s a = .ret (n - 1) s2
          ∧ get_ref_count c s2 a = .ret (n - 1) s2) := by
  have hv : toInt32 (s.count_of_pages (place_of c a)) = n := by
    simpa [get_ref_count, Outcome.val?] using hn
  refine ⟨by rw [get_ref_count_eq, hv], ?_, ?_⟩
  · rw [inc_ref_count_succ]
    refine ⟨s.setCount (place_of c a) (s.count_of_pages (place_of c a) / U32 * U32
      + (s.count_of_pages (place_of c a) + 1) % U32), ?_, ?_⟩
    · rw [toInt32_succ _ (by omega), hv]
    · rw [get_ref_count_eq, setCount_same, toInt32_split, toInt32_succ _ (by omega), hv]
  · intro _
    rw [dec_ref_count_succ]
    refine ⟨s.setCount (place_of c a) (s.count_of_pages (place_of c a) / U32 * U32
      + (s.count_of_pages (place_of c a) + 4294967295) % U32), ?_, ?_⟩
    · rw [toInt32_pred _ (by omega), hv]
    · rw [get_ref_count_eq, setCount_same, toInt32_split, toInt32_pred _ (by omega), hv]

theorem refcount_post_values_witness :
    2281693184 % PGSIZE = 0 ∧ cfg2.kend ≤ 2281693184 ∧ 2281693184 < cfg2.PHYSTOP
      ∧ (get_ref_count cfg2 (boot0.setCount 32766 1) 2281693184).val? = some 1
      ∧ (0 : Int) ≤ 1 ∧ (1 : Int) < 2147483647
      ∧ (get_ref_count cfg2 (boot0.setCount 32766 1) 2281693184
            = .ret 1 (boot0.setCount 32766 1)
        ∧ (∃ s1, inc_ref_count cfg2 (0 + 1) (boot0.setCount 32766 1) 2281693184
              = .ret (1 + 1) s1
            ∧ get_ref_count cfg2 s1 2281693184 = .ret (1 + 1) s1)
        ∧ ((1 : Int) ≤ 1 → ∃ s2, dec_ref_count cfg2 (0 + 1) (boot0.setCount 32766 1) 2281693184
              = .ret (1 - 1) s2
            ∧ get_ref_count cfg2 s2 2281693184 = .ret (1 - 1) s2)) :=
  ⟨by decide, by decide, by decide, by decide, by decide, by decide,
    refcount_post_values cfg2 0 (boot0.setCount 32766 1) 2281693184 1
      (by decide) (by decide) (by decide) (by decide) (by decide) (by decide)⟩

/-- Claim C9 as stated fails on the code: with a page-aligned `end`, `kfree(end)` (the very
first call `freerange` makes) is not fatal, although `end` does not lie strictly above the
kernel image end. -/
theorem kfree_at_end_is_not_fatal :
    ¬ ((kfree cfgAligned 1 (boot0.setCount (place_of cfgAligned 2281693184) 1)
          2281693184).isPanic = true
        ↔ (2281693184 % PGSIZE ≠ 0 ∨ 2281693184 ≤ cfgAligned.kend
            ∨ 2281693184 ≥ cfgAligned.PHYSTOP)) := by
  decide

theorem kfree_isPanic_imp (c : Config) (fuel : Nat) (s : State) (pa : Nat)
    (h : (kfree c fuel s pa).isPanic = true) :
    pa % PGSIZE ≠ 0 ∨ pa < c.kend ∨ pa ≥ c.PHYSTOP := by
  by_contra hv
  cases fuel with
  | zero => simp [kfree, if_neg hv, dec_ref_count, dec_loop, Outcome.isPanic] at h
  | succ f =>
    simp only [kfree, if_neg hv, dec_ref_count_succ] at h
    split at h <;> simp [Outcome.isPanic] at h

/-- Claim C9, amended: for every address `pa`, `kfree(pa)` calls `panic` if and only if
`pa` is not page-aligned, or lies below the end of the kernel image (`pa < end`), or is not
below the top of managed memory (`pa >= PHYSTOP`). -/
theorem kfree_fatal_iff (c : Config) (fuel : Nat) (s : State) (pa : Nat) :
    (kfree c fuel s pa).isPanic = true
      ↔ (pa % PGSIZE ≠ 0 ∨ pa < c.kend ∨ pa ≥ c.PHYSTOP) := by
  constructor
  · exact kfree_isPanic_imp c fuel s pa
  · intro h
    rw [kfree_panic c fuel s pa h]
    rfl

/-- Claim C10: whenever `kfree(pa)` is fatal, `panic` is reached in a state whose free list,
reference count table and memory content are those before the call. -/
theorem kfree_fatal_leaves_state (c : Config) (fuel : Nat) (s : State) (pa : Nat)
    (h : (kfree c fuel s pa).isPanic = true) :
    ∃ s', kfree c fuel s pa = .panic s' ∧ s'.freelist = s.freelist
      ∧ s'.count_of_pages = s.count_of_pages ∧ s'.mem = s.mem :=
  ⟨s, kfree_panic c fuel s pa (kfree_isPanic_imp c fuel s pa h), rfl, rfl, rfl⟩

theorem kfree_fatal_leaves_state_witness :
    (kfree cfg2 1 boot0 2281697281).isPanic = true
      ∧ ∃ s', kfree cfg2 1 boot0 2281697281 = .panic s' ∧ s'.freelist = boot0.freelist
          ∧ s'.count_of_pages = boot0.count_of_pages ∧ s'.mem = boot0.mem :=
  ⟨by decide, kfree_fatal_leaves_state cfg2 1 boot0 2281697281 (by decide)⟩

/-- Claim C11 as stated fails on the code: after `kfree(0x87FFE000)` on a frame whose
counter is 1, with an empty free list, the first byte of the page is 0 (a byte of the
link `r->next`), not the sentinel 1. -/
theorem kfree_first_byte_is_link :
    ¬ (kfree cfg2 1 (boot0.setCount 32766 1) 2281693184).holds
        (fun _ s => ∀ a, 2281693184 ≤ a → a < 2281693184 + PGSIZE → s.mem a = 1) := by
  intro h
  rw [kfree_push cfg2 0 _ 2281693184 (by decide) (by decide) (by decide) (by decide)] at h
  have h0 := h 2281693184 (by decide) (by decide)
  revert h0
  decide

theorem toInt32_eq_one_dec (v : Nat) (h : toInt32 v = 1) : toInt32 (v + 4294967295) = 0 := by
  rw [toInt32_pred v (by omega), h]
  rfl

/-- Claim C11, amended: for every valid address `p` whose counter is 1, `kfree(p)` returns,
and right after it every byte of page `p` past the first eight equals the free sentinel 1,
which differs from the allocation sentinel 5; the first eight bytes hold the link to the
previous head of the free list. -/
theorem kfree_scrubs_page (c : Config) (fuel : Nat) (s : State) (p : Nat)
    (hal : p % PGSIZE = 0) (hlo : c.kend ≤ p) (hhi : p < c.PHYSTOP)
    (hcnt : (get_ref_count c s p).val? = some 1) (hhead : s.freelist < U64) :
    ∃ s', kfree c (fuel + 1) s p = .ret () s'
      ∧ (∀ a, p + 8 ≤ a → a < p + PGSIZE → s'.mem a = 1)
      ∧ load64 s'.mem p = s.freelist ∧ (1 : Nat) ≠ 5 := by
  have hv : toInt32 (s.count_of_pages (place_of c p)) = 1 := by
    simpa [get_ref_count, Outcome.val?] using hcnt
  refine ⟨pushed c s p, kfree_push c fuel s p hal hlo hhi
    (by rw [toInt32_eq_one_dec _ hv]), ?_, ?_, by decide⟩
  · intro a h1 h2
    have hout : ¬ (p ≤ a ∧ a < p + 8) := by omega
    have hin : p ≤ a ∧ a < p + PGSIZE := ⟨by omega, h2⟩
    simp only [pushed, store64, memset, if_neg hout, if_pos hin]
  · simp only [pushed]
    exact load64_store64 _ _ _ hhead

theorem kfree_scrubs_page_witness :
    2281693184 % PGSIZE = 0 ∧ cfg2.kend ≤ 2281693184 ∧ 2281693184 < cfg2.PHYSTOP
      ∧ (get_ref_count cfg2 (boot0.setCount 32766 1) 2281693184).val? = some 1
      ∧ (boot0.setCount 32766 1).freelist < U64
      ∧ ∃ s', kfree cfg2 (0 + 1) (boot0.setCount 32766 1) 2281693184 = .ret () s'
        ∧ (∀ a, 2281693184 + 8 ≤ a → a < 2281693184 + PGSIZE → s'.mem a = 1)
        ∧ load64 s'.mem 2281693184 = (boot0.setCount 32766 1).freelist ∧ (1 : Nat) ≠ 5 :=
  ⟨by decide, by decide, by decide, by decide, by decide,
    kfree_scrubs_page cfg2 0 (boot0.setCount 32766 1) 2281693184
      (by decide) (by decide) (by decide) (by decide) (by decide)⟩

/-- Claim C12: in every state with a non-empty free list, `kalloc()` returns the head `p`
of the list, and right after it every one of the `PGSIZE` bytes of page `p` equals the
allocation sentinel 5. -/
theorem kalloc_scrubs_page (c : Config) (fuel : Nat) (s : State) (h : s.freelist ≠ 0) :
    ∃ p s', kalloc c (fuel + 1) s = .ret p s' ∧ p = s.freelist ∧ p ≠ 0
      ∧ ∀ a, p ≤ a → a < p + PGSIZE → s'.mem a = 5 := by
  refine ⟨s.freelist, popped c s, kalloc_nonempty c fuel s h, rfl, h, ?_⟩
  intro a h1 h2
  simp only [popped, memset, if_pos (And.intro h1 h2)]

theorem kalloc_scrubs_page_witness :
    (pushed cfg2 (boot0.setCount 32766 1) 2281693184).freelist ≠ 0
      ∧ ∃ p s', kalloc cfg2 (0 + 1) (pushed cfg2 (boot0.setCount 32766 1) 2281693184)
            = .ret p s'
          ∧ p = (pushed cfg2 (boot0.setCount 32766 1) 2281693184).freelist ∧ p ≠ 0
          ∧ ∀ a, p ≤ a → a < p + PGSIZE → s'.mem a = 5 :=
  ⟨by decide, kalloc_scrubs_page cfg2 0 (pushed cfg2 (boot0.setCount 32766 1) 2281693184)
    (by decide)⟩

/-- Claim C13, evaluated on the code: with two frames, in the state `kinit` returns in
(before any other call) `get_ref_count(0x87FFF000)` is -1, which is negative. -/
theorem kinit_leaves_negative_counter :
    (kinit cfg2 3 boot0).holds fun _ s0 =>
      isFrame cfg2 2281697280
        ∧ (get_ref_count cfg2 s0 2281697280).holds fun v _ => v = -1 ∧ ¬ (0 ≤ v) := by
  decide

/-- Claim C14 as stated fails on the code: on the frame `0x87FFE000` with counter 0,
neither `dec_ref_count` nor `kfree` ends in `panic`; `dec_ref_count` returns -1 and
`kfree` returns with the frame at the head of the free list. -/
theorem dec_at_zero_is_not_fatal :
    isFrame cfg2 2281693184 ∧ (get_ref_count cfg2 boot0 2281693184).val? = some 0
      ∧ ¬ ((dec_ref_count cfg2 1 boot0 2281693184).isPanic = true)
      ∧ ¬ ((kfree cfg2 1 boot0 2281693184).isPanic = true)
      ∧ (dec_ref_count cfg2 1 boot0 2281693184).val? = some (-1)
      ∧ (kfree cfg2 1 boot0 2281693184).holds (fun _ s => s.freelist = 2281693184) := by
  decide

theorem toInt32_eq_zero_dec (v : Nat) (h : toInt32 v = 0) : toInt32 (v + 4294967295) = -1 := by
  rw [toInt32_pred v (by omega), h]
  rfl

/-- Claim C14, amended: the code has no check for a decrement at zero. For every in-range
page-aligned address `a` whose counter is 0, `dec_ref_count(a)` returns -1 (no fatal
error), leaves the counter reading -1 and the free list and memory unchanged; `kfree(a)`
returns as well, with `a` pushed at the head of the free list. -/
theorem dec_at_zero_returns (c : Config) (fuel : Nat) (s : State) (a : Nat)
    (hal : a % PGSIZE = 0) (hlo : c.kend ≤ a) (hhi : a < c.PHYSTOP)
    (hcnt : (get_ref_count c s a).val? = some 0) :
    (∃ s1, dec_ref_count c (fuel + 1) s a = .ret (-1) s1
        ∧ get_ref_count c s1 a = .ret (-1) s1
        ∧ s1.freelist = s.freelist ∧ s1.mem = s.mem)
      ∧ ∃ s2, kfree c (fuel + 1) s a = .ret () s2 ∧ s2.freelist = a
          ∧ get_ref_count c s2 a = .ret (-1) s2 := by
  have hv : toInt32 (s.count_of_pages (place_of c a)) = 0 := by
    simpa [get_ref_count, Outcome.val?] using hcnt
  have hd := toInt32_eq_zero_dec _ hv
  constructor
  · rw [dec_ref_count_succ, hd]
    refine ⟨s.setCount (place_of c a) (s.count_of_pages (place_of c a) / U32 * U32
      + (s.count_of_pages (place_of c a) + 4294967295) % U32), rfl, ?_, rfl, rfl⟩
    rw [get_ref_count_eq, setCount_same, toInt32_split, hd]
  · refine ⟨pushed c s a, kfree_push c fuel s a hal hlo hhi (by rw [hd]; decide), rfl, ?_⟩
    rw [get_ref_count_eq]
    simp only [pushed, setCount_same, toInt32_split, hd]

theorem dec_at_zero_returns_witness :
    2281693184 % PGSIZE = 0 ∧ cfg2.kend ≤ 2281693184 ∧ 2281693184 < cfg2.PHYSTOP
      ∧ (get_ref_count cfg2 boot0 2281693184).val? = some 0
      ∧ ((∃ s1, dec_ref_count cfg2 (0 + 1) boot0 2281693184 = .ret (-1) s1
          ∧ get_ref_count cfg2 s1 2281693184 = .ret (-1) s1
          ∧ s1.freelist = boot0.freelist ∧ s1.mem = boot0.mem)
        ∧ ∃ s2, kfree cfg2 (0 + 1) boot0 2281693184 = .ret () s2 ∧ s2.freelist = 2281693184
            ∧ get_ref_count cfg2 s2 2281693184 = .ret (-1) s2) :=
  ⟨by decide, by decide, by decide, by decide,
    dec_at_zero_returns cfg2 0 boot0 2281693184 (by decide) (by decide) (by decide)
      (by decide)⟩

theorem place_of_inj (c : Config) (p q : Nat) (hp : p % PGSIZE = 0) (hq : q % PGSIZE = 0)
    (hK : c.KERNBASE % PGSIZE = 0) (hp64 : p < U64) (hq64 : q < U64)
    (h : place_of c p = place_of c q) : p = q := by
  simp only [place_of, sub64, PGSIZE, U64] at *
  omega

/-- Claim C16: for every valid address `p` whose counter `n` is at least 2, `kfree(p)`
returns without `panic`, the counter of `p` then reads `n - 1`, the free list and the whole
memory (so the content of page `p`) are unchanged, and so is the counter of every other
frame. -/
theorem kfree_shared_frame (c : Config) (fuel : Nat) (s : State) (p : Nat) (n : Int)
    (hK : c.KERNBASE % PGSIZE = 0) (hP : c.PHYSTOP < U64)
    (hal : p % PGSIZE = 0) (hlo : c.kend ≤ p) (hhi : p < c.PHYSTOP)
    (hcnt : (get_ref_count c s p).val? = some n) (hn : 2 ≤ n) :
    ∃ s', kfree c (fuel + 1) s p = .ret () s'
      ∧ get_ref_count c s' p = .ret (n - 1) s'
      ∧ s'.freelist = s.freelist ∧ s'.mem = s.mem
      ∧ ∀ q, isFrame c q → q ≠ p →
          (get_ref_count c s' q).val? = (get_ref_count c s q).val? := by
  have hv : toInt32 (s.count_of_pages (place_of c p)) = n := by
    simpa [get_ref_count, Outcome.val?] using hcnt
  have hd := toInt32_pred (s.count_of_pages (place_of c p)) (by omega)
  refine ⟨_, kfree_keep c fuel s p hal hlo hhi (by omega), ?_, rfl, rfl, ?_⟩
  · rw [get_ref_count_eq, setCount_same, toInt32_split, hd, hv]
  · intro q hq hne
    have hslot : place_of c q ≠ place_of c p := fun h =>
      hne (place_of_inj c q p hq.1 hal hK (by have := hq.2.2; omega) (by omega) h)
    simp only [get_ref_count, Outcome.val?, setCount_other _ _ _ _ hslot]

theorem kfree_shared_frame_witness :
    cfg2.KERNBASE % PGSIZE = 0 ∧ cfg2.PHYSTOP < U64
      ∧ 2281693184 % PGSIZE = 0 ∧ cfg2.kend ≤ 2281693184 ∧ 2281693184 < cfg2.PHYSTOP
      ∧ (get_ref_count cfg2 (boot0.setCount 32766 2) 2281693184).val? = some 2
      ∧ (2 : Int) ≤ 2
      ∧ ∃ s', kfree cfg2 (0 + 1) (boot0.setCount 32766 2) 2281693184 = .ret () s'
        ∧ get_ref_count cfg2 s' 2281693184 = .ret (2 - 1) s'
        ∧ s'.freelist = (boot0.setCount 32766 2).freelist
        ∧ s'.mem = (boot0.setCount 32766 2).mem
        ∧ ∀ q, isFrame cfg2 q → q ≠ 2281693184 →
            (get_ref_count cfg2 s' q).val?
              = (get_ref_count cfg2 (boot0.setCount 32766 2) q).val? :=
  ⟨by decide, by decide, by decide, by decide, by decide, by decide, by decide,
    kfree_shared_frame cfg2 0 (boot0.setCount 32766 2) 2281693184 2
      (by decide) (by decide) (by decide) (by decide) (by decide) (by decide) (by decide)⟩

/-- Claim C19: with `KERNBASE <= end` and `KERNBASE`, `PHYSTOP` page-aligned, for every
(64-bit) address `pa` that passes the validation of `kfree` the slot index
`(pa - KERNBASE) / PGSIZE` is below the table length `(PHYSTOP - KERNBASE) / PGSIZE`, and
any two distinct page-aligned addresses have distinct slot indices. -/
theorem slot_index_in_bounds_and_injective (c : Config)
    (hK : c.KERNBASE % PGSIZE = 0) (hP : c.PHYSTOP % PGSIZE = 0) (hKe : c.KERNBASE ≤ c.kend)
    (pa : Nat) (h64 : pa < U64)
    (hval : ¬ (pa % PGSIZE ≠ 0 ∨ pa < c.kend ∨ pa ≥ c.PHYSTOP)) :
    place_of c pa = (pa - c.KERNBASE) / PGSIZE
      ∧ place_of c pa < (c.PHYSTOP - c.KERNBASE) / PGSIZE
      ∧ ∀ a b, a < U64 → b < U64 → a % PGSIZE = 0 → b % PGSIZE = 0 → a ≠ b →
          place_of c a ≠ place_of c b := by
  have hval' : pa % PGSIZE = 0 ∧ c.kend ≤ pa ∧ pa < c.PHYSTOP := by omega
  have he := place_of_eq c pa (by omega) h64
  refine ⟨he, ?_, ?_⟩
  · rw [he]
    simp only [PGSIZE] at *
    omega
  · intro a b ha hb hal hbl hne h
    exact hne (place_of_inj c a b hal hbl hK ha hb h)

theorem slot_index_in_bounds_and_injective_witness :
    cfg2.KERNBASE % PGSIZE = 0 ∧ cfg2.PHYSTOP % PGSIZE = 0 ∧ cfg2.KERNBASE ≤ cfg2.kend
      ∧ 2281693184 < U64
      ∧ ¬ (2281693184 % PGSIZE ≠ 0 ∨ 2281693184 < cfg2.kend ∨ 2281693184 ≥ cfg2.PHYSTOP)
      ∧ (place_of cfg2 2281693184 = (2281693184 - cfg2.KERNBASE) / PGSIZE
        ∧ place_of cfg2 2281693184 < (cfg2.PHYSTOP - cfg2.KERNBASE) / PGSIZE
        ∧ ∀ a b, a < U64 → b < U64 → a % PGSIZE = 0 → b % PGSIZE = 0 → a ≠ b →
            place_of cfg2 a ≠ place_of cfg2 b) :=
  ⟨by decide, by decide, by decide, by decide, by decide,
    slot_index_in_bounds_and_injective cfg2 (by decide) (by decide) (by decide) 2281693184
      (by decide) (by decide)⟩

/-- Claim C20: after `kinit` over a managed range of `K >= 2` frames, all `K` frames are
on the free list, `get_ref_count` returns 1 for the lowest frame `PGROUNDUP(end)` and -1
for every other frame of the range. -/
theorem kinit_actual_counters (c : Config) (hwf : c.wf) (s : State) (hs : s.freelist = 0)
    (fuel : Nat) (hf : nframes c < fuel) (h2 : 2 ≤ nframes c) :
    ∃ s0 l, kinit c fuel s = .ret () s0 ∧ FreeListIs s0 l ∧ l.length = nframes c
      ∧ (∀ p, p ∈ l ↔ (p % PGSIZE = 0 ∧ PGROUNDUP c.kend ≤ p ∧ p + PGSIZE ≤ c.PHYSTOP))
      ∧ get_ref_count c s0 (PGROUNDUP c.kend) = .ret 1 s0
      ∧ ∀ p ∈ l, p ≠ PGROUNDUP c.kend → get_ref_count c s0 p = .ret (-1) s0 := by
  obtain ⟨s0, hrun, hch, hlow, hoth⟩ := kinit_counters c hwf s hs fuel hf h2
  refine ⟨s0, (frames c).reverse, hrun, hch, by simp [frames, length_framesFrom], ?_, hlow, ?_⟩
  · intro p
    rw [List.mem_reverse, mem_frames c hwf p]
  · intro p hp hne
    exact hoth p (List.mem_reverse.mp hp) hne

theorem kinit_actual_counters_witness :
    cfg2.wf ∧ boot0.freelist = 0 ∧ nframes cfg2 < 3 ∧ 2 ≤ nframes cfg2
      ∧ ∃ s0 l, kinit cfg2 3 boot0 = .ret () s0 ∧ FreeListIs s0 l ∧ l.length = nframes cfg2
        ∧ (∀ p, p ∈ l ↔ (p % PGSIZE = 0 ∧ PGROUNDUP cfg2.kend ≤ p ∧ p + PGSIZE ≤ cfg2.PHYSTOP))
        ∧ get_ref_count cfg2 s0 (PGROUNDUP cfg2.kend) = .ret 1 s0
        ∧ ∀ p ∈ l, p ≠ PGROUNDUP cfg2.kend → get_ref_count cfg2 s0 p = .ret (-1) s0 :=
  ⟨by decide, rfl, by decide, by decide,
    kinit_actual_counters cfg2 (by decide) boot0 rfl 3 (by decide) (by decide)⟩

/-- Claim C17, evaluated on the code: in the state `kinit` leaves with two frames the free
list is `[0x87FFF000, 0x87FFE000]` and the counter of the valid address `0x87FFE000` is 1
(the frame is on the free list although its counter is not 0); `kfree(0x87FFE000)` followed
by `kalloc()` returns `0x87FFE000`, but afterwards the free list is no longer
`[0x87FFF000, 0x87FFE000]`: the frame was pushed a second time and its link was then
overwritten by the allocation sentinel. -/
theorem lifo_pair_changes_free_list :
    (kinit cfg2 3 boot0).holds fun _ s0 =>
      FreeListIs s0 [2281697280, 2281693184] ∧ isFrame cfg2 2281693184
        ∧ (get_ref_count cfg2 s0 2281693184).val? = some 1
        ∧ (kfree cfg2 3 s0 2281693184).holds fun _ s1 =>
            (kalloc cfg2 3 s1).holds fun p s2 =>
              p = 2281693184 ∧ ¬ FreeListIs s2 [2281697280, 2281693184] := by
  decide

theorem kfree_kalloc_returns (c : Config) (fuel : Nat) (s : State) (p : Nat)
    (h0 : 0 < c.kend) (hhead : s.freelist < U64)
    (hal : p % PGSIZE = 0) (hlo : c.kend ≤ p) (hhi : p < c.PHYSTOP)
    (hcnt : (get_ref_count c s p).val? = some 1) :
    kfree c (fuel + 1) s p = .ret () (pushed c s p)
      ∧ kalloc c (fuel + 1) (pushed c s p) = .ret p (popped c (pushed c s p))
      ∧ (popped c (pushed c s p)).freelist = s.freelist := by
  have hv : toInt32 (s.count_of_pages (place_of c p)) = 1 := by
    simpa [get_ref_count, Outcome.val?] using hcnt
  have hne : (pushed c s p).freelist ≠ 0 := by
    simp only [pushed]; omega
  have hload : load64 (pushed c s p).mem (pushed c s p).freelist = s.freelist := by
    simp only [pushed]
    exact load64_store64 _ _ _ hhead
  refine ⟨kfree_push c fuel s p hal hlo hhi (by rw [toInt32_eq_one_dec _ hv]),
    kalloc_nonempty c fuel _ hne, ?_⟩
  simp only [popped, hload]

theorem lifo_reuse (c : Config) (fuel : Nat) (s : State) (l : List Nat) (p : Nat)
    (h0 : 0 < c.kend)
    (hch : FreeListIs s l) (hl : ∀ q ∈ l, q % PGSIZE = 0 ∧ q < U64 ∧ q ≠ p)
    (hal : p % PGSIZE = 0) (hlo : c.kend ≤ p) (hhi : p < c.PHYSTOP)
    (hcnt : (get_ref_count c s p).val? = some 1) :
    ∃ s1 s2, kfree c (fuel + 1) s p = .ret () s1 ∧ kalloc c (fuel + 1) s1 = .ret p s2
      ∧ s2.freelist = s.freelist ∧ FreeListIs s2 l := by
  have hhead : s.freelist < U64 := by
    rcases isChain_head _ _ _ hch with h | h
    · rw [h]; decide
    · exact (hl _ h).2.1
  obtain ⟨hfree, halloc, hsame⟩ := kfree_kalloc_returns c fuel s p h0 hhead hal hlo hhi hcnt
  refine ⟨pushed c s p, popped c (pushed c s p), hfree, halloc, hsame, ?_⟩
  have hload : load64 (pushed c s p).mem (pushed c s p).freelist = s.freelist := by
    simp only [pushed]
    exact load64_store64 _ _ _ hhead
  simp only [FreeListIs, popped, hload]
  refine isChain_congr s.mem _ l _ ?_ hch
  intro q hq x hx1 hx2
  obtain ⟨ha, -, hqp⟩ := hl q hq
  simp only [PGSIZE] at ha hal
  have hout : ¬ (p ≤ x ∧ x < p + 4096) := by omega
  have hout8 : ¬ (p ≤ x ∧ x < p + 8) := by omega
  simp only [pushed, memset, store64, PGSIZE, if_neg hout, if_neg hout8]

/-! ## The free-list / counter invariant -/

theorem get_val_iff (c : Config) (s : State) (p : Nat) (n : Int) :
    (get_ref_count c s p).val? = some n ↔ toInt32 (s.count_of_pages (place_of c p)) = n := by
  simp [get_ref_count, Outcome.val?]

theorem isChain_zero (m : Nat → Nat) (l : List Nat) (h : isChain m 0 l) : l = [] := by
  cases l with
  | nil => rfl
  | cons p l => exact absurd h.1.symm h.2.1

theorem toInt32_succ_ne_zero (v : Nat) (h : 1 ≤ toInt32 v) : toInt32 (v + 1) ≠ 0 := by
  simp only [toInt32, U32] at *
  split at h <;> split <;> omega

theorem isFrame_lt_U64 (c : Config) (hwf : c.wf) (p : Nat) (hp : isFrame c p) : p < U64 := by
  have := hwf.2.2.2.2.2
  have := hp.2.2
  omega

theorem isFrame_slot_ne (c : Config) (hwf : c.wf) (p q : Nat) (hp : isFrame c p)
    (hq : isFrame c q) (hne : q ≠ p) : place_of c q ≠ place_of c p := fun h =>
  hne (place_of_inj c q p hq.1 hp.1 hwf.1 (isFrame_lt_U64 c hwf q hq)
    (isFrame_lt_U64 c hwf p hp) h)

theorem InvFrames_kalloc (c : Config) (hwf : c.wf) (s : State) (hinv : InvFrames c s)
    (fuel : Nat) : ∃ r s', kalloc c (fuel + 1) s = .ret r s' ∧ InvFrames c s' := by
  obtain ⟨l, hch, hnd, hfr, hiff⟩ := hinv
  cases l with
  | nil =>
    exact ⟨0, s, kalloc_empty c _ s hch, [], hch, hnd, hfr, hiff⟩
  | cons p l =>
    have hp : s.freelist = p := hch.1
    have hne : s.freelist ≠ 0 := by rw [hp]; exact hch.2.1
    have hnd' := List.nodup_cons.mp hnd
    have hpf : isFrame c p := hfr p (List.mem_cons_self _ _)
    have hc0 : toInt32 (s.count_of_pages (place_of c p)) = 0 :=
      (get_val_iff c s p 0).mp ((hiff p hpf).mp (List.mem_cons_self _ _))
    refine ⟨s.freelist, popped c s, kalloc_nonempty c fuel s hne, l, ?_, hnd'.2,
      fun q hq => hfr q (List.mem_cons_of_mem _ hq), ?_⟩
    · simp only [FreeListIs, popped, hp]
      exact isChain_pop s.mem l s.freelist p 5 hpf.1
        (fun q hq => ⟨(hfr q (List.mem_cons_of_mem _ hq)).1, fun h => hnd'.1 (h ▸ hq)⟩) hch
    · intro q hq
      rw [get_val_iff]
      by_cases hqp : q = p
      · subst hqp
        simp only [popped, hp, setCount_same, toInt32_split]
        rw [toInt32_succ _ (by omega), hc0]
        exact ⟨fun h => absurd h hnd'.1, fun h => by omega⟩
      · have hslot := isFrame_slot_ne c hwf p q hpf hq hqp
        simp only [popped, hp, setCount_other _ _ _ _ hslot]
        rw [← get_val_iff, ← hiff q hq, List.mem_cons]
        exact ⟨fun h => Or.inr h, fun h => h.resolve_left hqp⟩

theorem InvFrames_kfree (c : Config) (hwf : c.wf) (s : State) (hinv : InvFrames c s)
    (fuel : Nat) (p : Nat) (n : Int) (hpf : isFrame c p)
    (hcnt : (get_ref_count c s p).val? = some n) (hn : 1 ≤ n) :
    ∃ s', kfree c (fuel + 1) s p = .ret () s' ∧ InvFrames c s' := by
  obtain ⟨l, hch, hnd, hfr, hiff⟩ := hinv
  have hv : toInt32 (s.count_of_pages (place_of c p)) = n := (get_val_iff c s p n).mp hcnt
  have hd := toInt32_pred (s.count_of_pages (place_of c p)) (by omega)
  have hpl : p ∉ l := fun h => by
    have := (get_val_iff c s p 0).mp ((hiff p hpf).mp h)
    omega
  have hk0 := hwf.2.2.2.2.1
  by_cases h1 : n = 1
  · -- last reference: the frame is pushed
    have hhead : s.freelist < U64 := by
      rcases isChain_head _ _ _ hch with h | h
      · rw [h]; decide
      · exact isFrame_lt_U64 c hwf _ (hfr _ h)
    refine ⟨pushed c s p, kfree_push c fuel s p hpf.1 hpf.2.1 hpf.2.2 (by omega), p :: l,
      ?_, List.nodup_cons.mpr ⟨hpl, hnd⟩, ?_, ?_⟩
    · simp only [FreeListIs, pushed]
      exact isChain_push s.mem l s.freelist p (by have := hpf.2.1; omega) hpf.1 hhead
        (fun q hq => ⟨(hfr q hq).1, fun h => hpl (h ▸ hq)⟩) hch
    · intro q hq
      rcases List.mem_cons.mp hq with rfl | hq
      · exact hpf
      · exact hfr q hq
    · intro q hq
      rw [get_val_iff]
      by_cases hqp : q = p
      · subst hqp
        simp only [pushed, setCount_same, toInt32_split]
        exact ⟨fun _ => by omega, fun _ => List.mem_cons_self _ _⟩
      · have hslot := isFrame_slot_ne c hwf p q hpf hq hqp
        simp only [pushed, setCount_other _ _ _ _ hslot]
        rw [← get_val_iff, ← hiff q hq, List.mem_cons]
        exact ⟨fun h => h.resolve_left hqp, fun h => Or.inr h⟩
  · -- other references remain: only the counter changes
    refine ⟨_, kfree_keep c fuel s p hpf.1 hpf.2.1 hpf.2.2 (by omega), l, hch, hnd, hfr, ?_⟩
    intro q hq
    rw [get_val_iff]
    by_cases hqp : q = p
    · subst hqp
      simp only [setCount_same, toInt32_split]
      exact ⟨fun h => absurd h hpl, fun h => by omega⟩
    · have hslot := isFrame_slot_ne c hwf p q hpf hq hqp
      simp only [setCount_other _ _ _ _ hslot]
      rw [← get_val_iff]
      exact hiff q hq

theorem InvFrames_inc (c : Config) (s : State) (hinv : InvFrames c s)
    (fuel : Nat) (p : Nat) (n : Int)
    (hcnt : (get_ref_count c s p).val? = some n) (hn : 1 ≤ n) :
    ∃ v s', inc_ref_count c (fuel + 1) s p = .ret v s' ∧ InvFrames c s' := by
  obtain ⟨l, hch, hnd, hfr, hiff⟩ := hinv
  have hv : toInt32 (s.count_of_pages (place_of c p)) = n := (get_val_iff c s p n).mp hcnt
  refine ⟨_, _, inc_ref_count_succ c fuel s p, l, hch, hnd, hfr, ?_⟩
  intro q hq
  rw [get_val_iff]
  by_cases hslot : place_of c q = place_of c p
  · rw [hslot, setCount_same, toInt32_split]
    have hq0 : q ∉ l := fun h => by
      have := (get_val_iff c s q 0).mp ((hiff q hq).mp h)
      rw [hslot] at this
      omega
    exact ⟨fun h => absurd h hq0,
      fun h => absurd h (toInt32_succ_ne_zero _ (by omega))⟩
  · rw [setCount_other _ _ _ _ hslot, ← get_val_iff]
    exact hiff q hq

theorem InvFrames_oneFree : InvFrames cfg2 oneFree := by
  refine ⟨[2281697280], by decide, by decide, by decide, ?_⟩
  intro p hp
  have hpp : p = 2281693184 ∨ p = 2281697280 := by
    simp only [isFrame, PGSIZE, cfg2] at hp
    omega
  rcases hpp with rfl | rfl <;> decide

/-- Claim C15: let the invariant be: the free list (a list of frames of the managed range)
has no duplicates, and a frame of the managed range is on the free list if and only if its
counter is 0. If it holds in `s`, it holds after `kalloc()`, after `kfree(p)` for any valid
`p` with counter at least 1, after `inc_ref_count(p)` for any `p` with counter at least 1,
and after `get_ref_count`; each of these calls returns. -/
theorem invariant_preserved (c : Config) (hwf : c.wf) (s : State) (hinv : InvFrames c s)
    (fuel : Nat) :
    (∃ r s', kalloc c (fuel + 1) s = .ret r s' ∧ InvFrames c s')
      ∧ (∀ p n, isFrame c p → (get_ref_count c s p).val? = some n → 1 ≤ n →
          ∃ s', kfree c (fuel + 1) s p = .ret () s' ∧ InvFrames c s')
      ∧ (∀ p n, (get_ref_count c s p).val? = some n → 1 ≤ n →
          ∃ v s', inc_ref_count c (fuel + 1) s p = .ret v s' ∧ InvFrames c s')
      ∧ (∀ p, ∃ v s', get_ref_count c s p = .ret v s' ∧ InvFrames c s') :=
  ⟨InvFrames_kalloc c hwf s hinv fuel,
    fun p n hp hc hn => InvFrames_kfree c hwf s hinv fuel p n hp hc hn,
    fun p n hc hn => InvFrames_inc c s hinv fuel p n hc hn,
    fun _ => ⟨_, s, rfl, hinv⟩⟩

theorem invariant_preserved_witness :
    cfg2.wf ∧ InvFrames cfg2 oneFree
      ∧ ((∃ r s', kalloc cfg2 (0 + 1) oneFree = .ret r s' ∧ InvFrames cfg2 s')
        ∧ (∀ p n, isFrame cfg2 p → (get_ref_count cfg2 oneFree p).val? = some n → 1 ≤ n →
            ∃ s', kfree cfg2 (0 + 1) oneFree p = .ret () s' ∧ InvFrames cfg2 s')
        ∧ (∀ p n, (get_ref_count cfg2 oneFree p).val? = some n → 1 ≤ n →
            ∃ v s', inc_ref_count cfg2 (0 + 1) oneFree p = .ret v s' ∧ InvFrames cfg2 s')
        ∧ (∀ p, ∃ v s', get_ref_count cfg2 oneFree p = .ret v s' ∧ InvFrames cfg2 s')) :=
  ⟨by decide, InvFrames_oneFree, invariant_preserved cfg2 (by decide) oneFree InvFrames_oneFree 0⟩

/-! ## Two concurrent decrements -/

theorem dec_step_alone (c : Config) (fuel : Nat) (s : State) (pa : Nat) :
    ∃ v s', dec_ref_count c (fuel + 1) s pa = .ret v s'
      ∧ dec_interleave c pa [true, true, true, true] (s, .readPrev, .readPrev)
          = (s', .done v, .readPrev) := by
  refine ⟨_, _, dec_ref_count_succ c fuel s pa, ?_⟩
  simp only [dec_interleave, dec_step, cas_same, ofInt32_toInt32, sub64_one_word,
    get_ref_count, setCount_same, toInt32_split]

theorem cas_of_eq (s : State) (place : Nat) (prev next : Int)
    (h : toInt32 (s.count_of_pages place) = prev) :
    cas s place prev next
      = (0, s.setCount place (s.count_of_pages place / U32 * U32 + ofInt32 next)) := by
  subst h
  exact cas_same s place next

theorem dec_interleave_both_zero (c : Config) (s : State) (pa : Nat)
    (h : (get_ref_count c s pa).val? = some 2) :
    (dec_interleave c pa [true, true, true, false, false, false, true, false]
        (s, .readPrev, .readPrev)).2 = (.done 0, .done 0) := by
  have hv : toInt32 (s.count_of_pages (place_of c pa)) = 2 := (get_val_iff c s pa 2).mp h
  have h1 : toInt32 (s.count_of_pages (place_of c pa) + 4294967295) = 1 := by
    rw [toInt32_pred _ (by omega), hv]; rfl
  have h0 : toInt32 (s.count_of_pages (place_of c pa) + 4294967295 + 4294967295) = 0 := by
    rw [toInt32_pred _ (by omega), h1]; rfl
  have e1 : ∀ v d : Nat, (v / U32 * U32 + (v + d) % U32) / U32 * U32
      + (v / U32 * U32 + (v + d) % U32 + 4294967295) % U32
      = v / U32 * U32 + (v + d + 4294967295) % U32 := by
    intro v d
    simp only [U32]
    omega
  have hcas2 := cas_of_eq (s.setCount (place_of c pa)
      (s.count_of_pages (place_of c pa) / U32 * U32
        + (s.count_of_pages (place_of c pa) + 4294967295) % U32)) (place_of c pa)
    (toInt32 (s.count_of_pages (place_of c pa) + 4294967295))
    (toInt32 (sub64 (s.count_of_pages (place_of c pa) / U32 * U32
        + (s.count_of_pages (place_of c pa) + 4294967295) % U32) 1))
    (by rw [setCount_same, toInt32_split])
  simp only [dec_interleave, dec_step, cas_same, ofInt32_toInt32, sub64_one_word,
    get_ref_count, setCount_same, toInt32_split, hcas2, e1]
  rw [toInt32_word, toInt32_mod, h0]

/-- Claim C18, evaluated on the code: two execution contexts run `dec_ref_count` on the
frame `0x87FFE000` whose counter is 2. In the interleaving where the first context
completes its reads and its `cas` (2 to 1), then the second completes its reads and its
`cas` (1 to 0), and only then both do the final `get_ref_count` read, both calls return
0. -/
theorem both_decrementers_return_zero :
    (get_ref_count cfg2 (boot0.setCount 32766 2) 2281693184).val? = some 2
      ∧ (dec_interleave cfg2 2281693184
          [true, true, true, false, false, false, true, false]
          (boot0.setCount 32766 2, .readPrev, .readPrev)).2 = (.done 0, .done 0) := by
  decide

end Kalloc
